import Mathlib

/-!
Video frame compressor (`serial.c`): the parallel compression core.

A shallow embedding of `compress_frame` (the routine run by each of the
`MAX_THREADS` threads) and of the part of `main` that starts after the sorted
list of frame files has been built: thread start, join, archive writing and the
compression-rate report.

Modelling choices.

* Bytes are `Fin 256`; a file, a buffer and the archive are lists of bytes.
* The zlib library is not part of the repository.  It is taken as a parameter
  `Codec`: the complete zlib stream that `deflate` produces for an input.  The
  single-shot call `deflate(&strm, Z_FINISH)` is modelled by `deflate` below
  from zlib's documented contract: it returns `Z_STREAM_END` when the whole
  stream fits in `avail_out`, and `Z_OK` with a full output buffer otherwise.
* Threads are modelled by interleaving: every thread is a small machine whose
  program counter is a `Phase`; a schedule is a list of thread ids, each entry
  letting that thread take its next step.  The two mutex-protected increments
  are single steps; a failing `assert` stops the whole process.
* `int` is 32 bits wide; the two counters wrap around (`wrapInt`).  The length
  field of an entry is the 4 bytes of an `int` in the byte order of the host
  (little endian).  File counts and loop indices are natural numbers.
* Memory allocation and the creation of the output file are assumed to succeed.
-/

namespace VideoZip

/-- One `unsigned char`. -/
abbrev Byte := Fin 256

/-- The `#define BUFFER_SIZE 1048576`. -/
def BUFFER_SIZE : Nat := 1048576

/-- The `#define MAX_THREADS 19`. -/
def MAX_THREADS : Nat := 19

/-- The zlib status `Z_OK`. -/
def Z_OK : Int := 0

/-- The zlib status `Z_STREAM_END`. -/
def Z_STREAM_END : Int := 1

/-- A frame file as the program sees it: whether `fopen` succeeds, the bytes
`fread` can transfer from it (on a read error, the bytes transferred before the
error), and whether the stream ends in a read error (the error indicator of the
stream, which the program never tests). -/
structure InputFile where
  fopen_ok : Bool
  content : List Byte
  read_error : Bool

/-- The compression library, level 9: the complete stream it emits for an
input. -/
structure Codec where
  stream : List Byte → List Byte

/-- What a call of `deflate` leaves behind: its return value, `strm.avail_out`
and the contents of the output buffer. -/
structure DeflateResult where
  ret : Int
  avail_out : Nat
  buffer : List Byte

/-- The call `deflate(&strm, Z_FINISH)` right after a successful
`deflateInit(&strm, 9)`, with `next_in`/`avail_in` the input and
`next_out`/`avail_out` the output buffer.  The library is external: this follows
its documented contract.  The whole stream is written and `Z_STREAM_END` is
returned when the stream fits in `avail_out`; otherwise the output buffer is
filled, `avail_out` drops to 0 and `Z_OK` asks for more output space. -/
def deflate (codec : Codec) (next_in : List Byte) (avail_in : Nat)
    (next_out : List Byte) (avail_out : Nat) : DeflateResult :=
  let s := codec.stream (next_in.take avail_in)
  if s.length ≤ avail_out then
    { ret := Z_STREAM_END, avail_out := avail_out - s.length,
      buffer := s ++ next_out.drop s.length }
  else
    { ret := Z_OK, avail_out := 0,
      buffer := s.take avail_out ++ next_out.drop avail_out }

/-- Addition on `int` keeps the low 32 bits (two's complement). -/
def wrapInt (x : Int) : Int := (x + 2147483648) % 4294967296 - 2147483648

/-- The four bytes of a non-negative `int`, as `memcpy(..., &nbytes_zipped,
sizeof(int))` lays them out. -/
def intBytes (n : Nat) : List Byte :=
  [⟨n % 256, Nat.mod_lt _ (by decide)⟩,
   ⟨n / 256 % 256, Nat.mod_lt _ (by decide)⟩,
   ⟨n / 65536 % 256, Nat.mod_lt _ (by decide)⟩,
   ⟨n / 16777216 % 256, Nat.mod_lt _ (by decide)⟩]

/-- The value `*((int *)p)` of the first four bytes at `p`. -/
def readInt (p : List Byte) : Nat :=
  (p.getD 0 0).val + 256 * (p.getD 1 0).val + 65536 * (p.getD 2 0).val
    + 16777216 * (p.getD 3 0).val

/-- Update of one slot of an array. -/
def setAt {α : Type} (a : Nat → α) (k : Nat) (v : α) : Nat → α :=
  fun j => if j = k then v else a j

/-- Where a thread stands in the body of its loop. -/
inductive Phase where
  | loopTest
  | addIn
  | compress
  | store
  | addOut
  | returned
  deriving DecidableEq, Repr

/-- The private state of one thread: program counter, loop variable `i`, the
locals `nbytes` and `nbytes_zipped`, and its two buffers of `BUFFER_SIZE`
bytes. -/
structure Worker where
  pc : Phase
  i : Nat
  nbytes : Nat
  nbytes_zipped : Nat
  buffer_in : List Byte
  buffer_out : List Byte

/-- The state of the process while the threads run: the threads, the two
counters, the table `compressed_data` (`none` is a pointer not yet assigned),
and whether an `assert` has failed. -/
structure State where
  workers : Nat → Worker
  total_in : Int
  total_out : Int
  shared_compressed_files : Nat → Option (List Byte)
  aborted : Bool

/-- One step of thread `w` in `compress_frame`.

* `loopTest`: the test `i < *nfiles`; then `fopen`, `assert(f_in != NULL)` and
  `fread(buffer_in, 1, BUFFER_SIZE, f_in)`.
* `addIn`: `*total_in += nbytes` under `lock_total_in`.
* `compress`: `deflateInit`, `deflate(&strm, Z_FINISH)`,
  `assert(ret == Z_STREAM_END)`, `nbytes_zipped = BUFFER_SIZE - strm.avail_out`.
* `store`: `malloc` of the entry and the two `memcpy` into it.
* `addOut`: `*total_out += nbytes_zipped` under `lock_total_out`, then
  `i += MAX_THREADS`. -/
def step (files : List InputFile) (codec : Codec) (st : State) (w : Nat) : State :=
  if st.aborted = true ∨ MAX_THREADS ≤ w then st
  else
    let ws := st.workers w
    match ws.pc with
    | .loopTest =>
      if h : ws.i < files.length then
        if files[ws.i].fopen_ok = true then
          let data := files[ws.i].content.take BUFFER_SIZE
          { st with
            workers := setAt st.workers w
              { ws with
                pc := .addIn
                nbytes := data.length
                buffer_in := data ++ ws.buffer_in.drop data.length } }
        else { st with aborted := true }
      else { st with workers := setAt st.workers w { ws with pc := .returned } }
    | .addIn =>
      { st with
        total_in := wrapInt (st.total_in + ws.nbytes)
        workers := setAt st.workers w { ws with pc := .compress } }
    | .compress =>
      let r := deflate codec ws.buffer_in ws.nbytes ws.buffer_out BUFFER_SIZE
      if r.ret = Z_STREAM_END then
        { st with
          workers := setAt st.workers w
            { ws with
              pc := .store
              nbytes_zipped := BUFFER_SIZE - r.avail_out
              buffer_out := r.buffer } }
      else { st with aborted := true }
    | .store =>
      { st with
        shared_compressed_files := setAt st.shared_compressed_files ws.i
          (some (intBytes ws.nbytes_zipped ++ ws.buffer_out.take ws.nbytes_zipped))
        workers := setAt st.workers w { ws with pc := .addOut } }
    | .addOut =>
      { st with
        total_out := wrapInt (st.total_out + ws.nbytes_zipped)
        workers := setAt st.workers w
          { ws with pc := .loopTest, i := ws.i + MAX_THREADS } }
    | .returned => st

/-- The threads run under a schedule: each entry lets one thread take a step. -/
def runWorkers (files : List InputFile) (codec : Codec) (sched : List Nat)
    (st : State) : State :=
  sched.foldl (step files codec) st

/-- The state when the threads are created: thread `w` starts its loop at
`i = w` with the two freshly allocated buffers `heap w`, whose contents are
whatever `malloc` returned. -/
def initState (heap : Nat → List Byte × List Byte) : State :=
  { workers := fun w =>
      { pc := .loopTest, i := w, nbytes := 0, nbytes_zipped := 0,
        buffer_in := (heap w).1, buffer_out := (heap w).2 }
    total_in := 0
    total_out := 0
    shared_compressed_files := fun _ => none
    aborted := false }

/-- All `MAX_THREADS` calls of `pthread_join` return. -/
def allReturned (st : State) : Bool :=
  (List.range MAX_THREADS).all fun w => (st.workers w).pc == Phase.returned

/-- The two `fwrite` calls for one entry of `compressed_data`: the first
`sizeof(int)` bytes, then as many of the following bytes as the `int` at the
start of the entry says. -/
def writeEntry (entry : Option (List Byte)) : List Byte :=
  match entry with
  | some e => e.take 4 ++ (e.drop 4).take (readInt e)
  | none => []

/-- The loop `for (i = 0; i < nfiles; i++)` that writes `video.vzip`. -/
def writeArchive (nfiles : Nat) (table : Nat → Option (List Byte)) : List Byte :=
  (List.range nfiles).flatMap fun i => writeEntry (table i)

/-- The value of a `double` division whose operands are integers (both below
`2 ^ 53` in absolute value, so `double` holds them exactly): the correctly
rounded quotient of the two, or one of the special values that a division by
zero produces. -/
inductive Rate where
  | quotient (num den : Int)
  | nan
  | inf (negative : Bool)
  deriving DecidableEq

/-- Division of two `double` values holding integers: `0.0 / 0.0` is NaN, any
other division by zero is an infinity. -/
def doubleDiv (num den : Int) : Rate :=
  if den = 0 then
    if num = 0 then Rate.nan else Rate.inf (decide (num < 0))
  else Rate.quotient num den

/-- The expression `100.0 * (total_in - total_out) / total_in` of the report;
the subtraction is done on `int`, the rest on `double`. -/
def compressionRate (total_in total_out : Int) : Rate :=
  doubleDiv (100 * wrapInt (total_in - total_out)) total_in

/-- How a run ends: killed by a failed `assert` (nothing has been written to the
archive and nothing is reported), or finished with the bytes of `video.vzip`,
the two counters and the reported rate. -/
inductive Outcome where
  | aborted
  | finished (archive : List Byte) (total_in total_out : Int) (rate : Rate)
  deriving DecidableEq

/-- The bytes of the archive file at the end of the run. -/
def Outcome.archive : Outcome → List Byte
  | .aborted => []
  | .finished a _ _ _ => a

/-- The compression rate printed at the end of the run, if any. -/
def Outcome.report : Outcome → Option Rate
  | .aborted => none
  | .finished _ _ _ r => some r

/-- The body of `main` from the creation of the threads on, for the sorted list
`files` and a schedule of the threads.  The result is `none` when the schedule
ends before every thread has returned (the joins are still waiting). -/
def main (files : List InputFile) (codec : Codec)
    (heap : Nat → List Byte × List Byte) (sched : List Nat) : Option Outcome :=
  let st := runWorkers files codec sched (initState heap)
  if st.aborted = true then some Outcome.aborted
  else if allReturned st = true then
    some (Outcome.finished (writeArchive files.length st.shared_compressed_files)
      st.total_in st.total_out (compressionRate st.total_in st.total_out))
  else none

/-- The positions visited by `for (int i = tid; i < nfiles; i += MAX_THREADS)`,
run for at most `fuel` iterations. -/
def loopPositions : Nat → Nat → Nat → List Nat
  | 0, _, _ => []
  | fuel + 1, i, nfiles =>
    if i < nfiles then i :: loopPositions fuel (i + MAX_THREADS) nfiles else []

/-- The positions thread `tid` visits; `nfiles` iterations always suffice. -/
def positions (tid nfiles : Nat) : List Nat :=
  loopPositions nfiles tid nfiles

/-- The schedule that runs the threads one after the other in the given order,
each to its end (`5 * nfiles + 1` steps are enough for any thread). -/
def orderSchedule (order : List Nat) (nfiles : Nat) : List Nat :=
  order.flatMap fun w => List.replicate (5 * nfiles + 1) w

/-- The schedule that runs thread 0 to its end, then thread 1, and so on. -/
def seqSchedule (nfiles : Nat) : List Nat :=
  orderSchedule (List.range MAX_THREADS) nfiles

/-- A stand-in for the compression library in examples: it puts one marker byte
in front of the input. -/
def demoCodec : Codec := { stream := fun x => (120 : Byte) :: x }


/-- Position of a phase in the loop body (`returned` counts as outside). -/
def Phase.rank : Phase → Nat
  | .loopTest => 0
  | .addIn => 1
  | .compress => 2
  | .store => 3
  | .addOut => 4
  | .returned => 0

/-- Thread state `ws` has taken position `j` at least as far as the phase of
rank `k`: the loop variable is already beyond `j`, or it is at `j` and the
program counter has reached rank `k`. -/
def passed (k : Nat) (ws : Worker) (j : Nat) : Prop :=
  j < ws.i ∨ (j = ws.i ∧ k ≤ ws.pc.rank)

instance (k : Nat) (ws : Worker) (j : Nat) : Decidable (passed k ws j) := by
  unfold passed; infer_instance

/-- The sum `f 0 + ... + f (n - 1)`. -/
def sumTo (n : Nat) (f : Nat → Nat) : Nat := ((List.range n).map f).sum

/-- The bytes that `fread` transfers for position `j`: at most `BUFFER_SIZE`. -/
def itemData (files : List InputFile) (j : Nat) : List Byte :=
  match files[j]? with
  | some f => f.content.take BUFFER_SIZE
  | none => []

/-- Whether `fopen` succeeds for position `j`. -/
def itemOpens (files : List InputFile) (j : Nat) : Bool :=
  match files[j]? with
  | some f => f.fopen_ok
  | none => false

/-- The stream the library emits for position `j`. -/
def itemStream (files : List InputFile) (codec : Codec) (j : Nat) : List Byte :=
  codec.stream (itemData files j)

/-- The entry of `compressed_data` for position `j` once it is stored. -/
def itemEntry (files : List InputFile) (codec : Codec) (j : Nat) : List Byte :=
  intBytes (itemStream files codec j).length ++ itemStream files codec j

/-- Position `j` passes both assertions of the loop body. -/
def itemOk (files : List InputFile) (codec : Codec) (j : Nat) : Prop :=
  itemOpens files j = true ∧ (itemStream files codec j).length ≤ BUFFER_SIZE

instance (files : List InputFile) (codec : Codec) (j : Nat) :
    Decidable (itemOk files codec j) := by
  unfold itemOk; infer_instance

/-- Sum of `v j` over the positions `j < n` that their owner has taken as far as
rank `k`. -/
def progressSum (n k : Nat) (v : Nat → Nat) (workers : Nat → Worker) : Nat :=
  sumTo n fun j => if passed k (workers (j % MAX_THREADS)) j then v j else 0

/-- The invariant of the running threads: what every thread knows about the
position it is working on, and how the shared counters and the table follow
from the progress of the threads. -/
structure Inv (files : List InputFile) (codec : Codec) (st : State) : Prop where
  stripe : ∀ w, w < MAX_THREADS → (st.workers w).i % MAX_THREADS = w
  inLoop : ∀ w, w < MAX_THREADS → 1 ≤ (st.workers w).pc.rank →
    (st.workers w).i < files.length
  atEnd : ∀ w, w < MAX_THREADS → (st.workers w).pc = Phase.returned →
    files.length ≤ (st.workers w).i
  readOk : ∀ w, w < MAX_THREADS →
    (st.workers w).pc = Phase.addIn ∨ (st.workers w).pc = Phase.compress →
    (st.workers w).nbytes = (itemData files (st.workers w).i).length ∧
    (st.workers w).buffer_in.take (st.workers w).nbytes
      = itemData files (st.workers w).i
  zipOk : ∀ w, w < MAX_THREADS →
    (st.workers w).pc = Phase.store ∨ (st.workers w).pc = Phase.addOut →
    (st.workers w).nbytes_zipped = (itemStream files codec (st.workers w).i).length
  outOk : ∀ w, w < MAX_THREADS → (st.workers w).pc = Phase.store →
    (st.workers w).buffer_out.take (st.workers w).nbytes_zipped
      = itemStream files codec (st.workers w).i
  totalIn : st.total_in = wrapInt
    (progressSum files.length 2 (fun j => (itemData files j).length) st.workers : Nat)
  totalOut : st.total_out = wrapInt
    (progressSum files.length 5 (fun j => (itemStream files codec j).length)
      st.workers : Nat)
  table : ∀ j, st.shared_compressed_files j =
    if j < files.length ∧ passed 4 (st.workers (j % MAX_THREADS)) j
    then some (itemEntry files codec j) else none
  opened : ∀ j, j < files.length → passed 1 (st.workers (j % MAX_THREADS)) j →
    itemOpens files j = true
  fitted : ∀ j, j < files.length → passed 3 (st.workers (j % MAX_THREADS)) j →
    (itemStream files codec j).length ≤ BUFFER_SIZE
  abortedBad : st.aborted = true → ∃ j, j < files.length ∧ ¬ itemOk files codec j

/-- The frame the format prescribes for a file: the 4-byte length of the
compressed stream of its first `BUFFER_SIZE` bytes, then that stream. -/
def specFrame (codec : Codec) (f : InputFile) : List Byte :=
  intBytes (codec.stream (f.content.take BUFFER_SIZE)).length
    ++ codec.stream (f.content.take BUFFER_SIZE)

/-- The archive the format prescribes: the frames of the files, in order. -/
def specArchive (codec : Codec) (files : List InputFile) : List Byte :=
  files.flatMap (specFrame codec)

/-- A file passes both assertions of the loop body: it can be opened and the
compressed stream of its first `BUFFER_SIZE` bytes fits the output buffer. -/
def fileOk (codec : Codec) (f : InputFile) : Prop :=
  f.fopen_ok = true ∧ (codec.stream (f.content.take BUFFER_SIZE)).length ≤ BUFFER_SIZE

instance (codec : Codec) (f : InputFile) : Decidable (fileOk codec f) := by
  unfold fileOk; infer_instance

/-- Sum of the numbers of bytes read, one term per file. -/
def sumIn (files : List InputFile) : Nat :=
  (files.map fun f => min f.content.length BUFFER_SIZE).sum

/-- Sum of the compressed lengths, one term per file. -/
def sumOut (codec : Codec) (files : List InputFile) : Nat :=
  (files.map fun f => (codec.stream (f.content.take BUFFER_SIZE)).length).sum

/-- The full results table: the entry of every position below `nfiles`. -/
def fullTable (files : List InputFile) (codec : Codec) : Nat → Option (List Byte) :=
  fun j => if j < files.length then some (itemEntry files codec j) else none

/-- Steps thread state `ws` still needs before it has returned. -/
def fuelLeft (nfiles : Nat) (ws : Worker) : Nat :=
  match ws.pc with
  | .returned => 0
  | .loopTest => 5 * (nfiles - ws.i) + 1
  | .addIn => 5 * (nfiles - ws.i)
  | .compress => 5 * (nfiles - ws.i) - 1
  | .store => 5 * (nfiles - ws.i) - 2
  | .addOut => 5 * (nfiles - ws.i) - 3

/-- Thread `w` takes no further step: the process is dead or `w` has returned. -/
def settled (st : State) (w : Nat) : Prop :=
  st.aborted = true ∨ (st.workers w).pc = Phase.returned

/-- Reading an archive back, in the words of the specification of the format:
repeatedly a 4-byte length `L`, then `L` payload bytes, until the archive is
used up.  The result is
`none` when the archive ends inside a record.  At most `fuel` records are
read. -/
def splitRecords : Nat → List Byte → Option (List (List Byte))
  | _, [] => some []
  | 0, _ :: _ => none
  | fuel + 1, a :: as =>
    if (a :: as).length < 4 then none
    else if ((a :: as).drop 4).length < readInt (a :: as) then none
    else
      (splitRecords fuel (((a :: as).drop 4).drop (readInt (a :: as)))).map
        fun rs => ((a :: as).drop 4).take (readInt (a :: as)) :: rs

/-- Reading an archive back; every record takes at least 4 bytes, so as many
rounds as the archive has bytes are enough. -/
def readRecords (archive : List Byte) : Option (List (List Byte)) :=
  splitRecords archive.length archive

/-- A stand-in for the compression library that shortens some inputs and loses
nothing on inputs below `2 ^ 32` bytes: the length of the input, then the input
without its trailing zero bytes. -/
def trimCodec : Codec :=
  { stream := fun x =>
      intBytes x.length ++ (x.reverse.dropWhile fun b => b = 0).reverse }

/-- The inverse of `demoCodec`. -/
def demoInflate (s : List Byte) : List Byte := s.tail

/-- Buffers holding leftover bytes, as `malloc` may return them. -/
def staleHeap : Nat → List Byte × List Byte :=
  fun _ => (List.replicate BUFFER_SIZE 170, List.replicate BUFFER_SIZE 85)

/-- A readable file with the given bytes. -/
def plainFile (content : List Byte) : InputFile :=
  { fopen_ok := true, content := content, read_error := false }

/-- Two small frames. -/
def twoFiles : List InputFile := [plainFile [1, 2, 3], plainFile [7]]

/-- Twenty small frames: thread 0 compresses the first and the last one. -/
def twentyFiles : List InputFile :=
  plainFile [1, 2, 3] :: (List.replicate 18 (plainFile [5]) ++ [plainFile [9]])

/-- A file of one byte more than the buffer holds. -/
def overFile : InputFile := plainFile (List.replicate (BUFFER_SIZE + 1) 0)

/-- A file that `fopen` opens but `fread` cannot read (a directory, say):
no byte is transferred and the error indicator of the stream is set. -/
def unreadableFile : InputFile :=
  { fopen_ok := true, content := [], read_error := true }

/-- A schedule that lets the threads take turns, last thread first. -/
def roundRobin (rounds : Nat) : List Nat :=
  (List.range rounds).flatMap fun _ => (List.range MAX_THREADS).reverse

/-- The state the threads have reached after a schedule, from the start. -/
def reached (files : List InputFile) (codec : Codec)
    (heap : Nat → List Byte × List Byte) (sched : List Nat) : State :=
  runWorkers files codec sched (initState heap)

/-! # Theorems -/

/-! ## The striped loop -/

theorem mem_loopPositions (fuel : Nat) : ∀ i n j : Nat,
    j ∈ loopPositions fuel i n ↔
      j < n ∧ i ≤ j ∧ (j - i) % 19 = 0 ∧ (j - i) / 19 < fuel := by
  induction fuel with
  | zero => intro i n j; simp [loopPositions]
  | succ fuel ih =>
    intro i n j
    unfold loopPositions
    by_cases h : i < n
    · rw [if_pos h, List.mem_cons, ih]
      simp only [MAX_THREADS]
      constructor
      · rintro (rfl | ⟨h1, h2, h3, h4⟩)
        · simp [h]
        · refine ⟨h1, by omega, by omega, by omega⟩
      · rintro ⟨h1, h2, h3, h4⟩
        by_cases hj : j = i
        · exact Or.inl hj
        · exact Or.inr ⟨h1, by omega, by omega, by omega⟩
    · rw [if_neg h]
      simp only [List.not_mem_nil, false_iff]
      omega

theorem mem_positions (tid n j : Nat) (htid : tid < MAX_THREADS) :
    j ∈ positions tid n ↔ j < n ∧ j % MAX_THREADS = tid := by
  unfold positions
  rw [mem_loopPositions]
  simp only [MAX_THREADS] at *
  omega

theorem loopPositions_nodup (fuel : Nat) : ∀ i n : Nat,
    (loopPositions fuel i n).Nodup := by
  induction fuel with
  | zero => intro i n; simp [loopPositions]
  | succ fuel ih =>
    intro i n
    unfold loopPositions
    split
    · refine List.nodup_cons.mpr ⟨?_, ih _ _⟩
      rw [mem_loopPositions]
      simp only [MAX_THREADS]
      omega
    · exact List.nodup_nil

theorem loopPositions_fuel (fuel : Nat) : ∀ fuel2 i n : Nat,
    n - i ≤ fuel → n - i ≤ fuel2 →
      loopPositions fuel i n = loopPositions fuel2 i n := by
  induction fuel with
  | zero =>
    intro fuel2 i n h1 _
    cases fuel2 with
    | zero => rfl
    | succ k =>
      have : ¬ i < n := by omega
      simp [loopPositions, this]
  | succ fuel ih =>
    intro fuel2 i n h1 h2
    cases fuel2 with
    | zero =>
      have : ¬ i < n := by omega
      simp [loopPositions, this]
    | succ k =>
      unfold loopPositions
      by_cases h : i < n
      · rw [if_pos h, if_pos h, ih k (i + MAX_THREADS) n]
        · simp only [MAX_THREADS]; omega
        · simp only [MAX_THREADS]; omega
      · rw [if_neg h, if_neg h]

/-- C1. Partition completeness: for every number of files `N`, every position
`i < N` is visited by thread `i mod MAX_THREADS`, exactly once, and by no other
thread; no thread visits a position `>= N`; the loop needs no more than `N`
iterations (more fuel does not change the visited positions); and as long as
`N + MAX_THREADS` is at most `2 ^ 31` the loop variable stays in the range of
`int`, its last increment included. -/
theorem C1_partition_completeness (N : Nat) :
    (∀ i, i < N →
      i ∈ positions (i % MAX_THREADS) N ∧
      (positions (i % MAX_THREADS) N).count i = 1 ∧
      ∀ w, w < MAX_THREADS → i ∈ positions w N → w = i % MAX_THREADS) ∧
    (∀ w, w < MAX_THREADS → ∀ p, p ∈ positions w N → p < N) ∧
    (∀ w fuel, N ≤ fuel → loopPositions fuel w N = positions w N) ∧
    (∀ w, w < MAX_THREADS → ∀ p, p ∈ positions w N →
      N + MAX_THREADS ≤ 2147483648 → p + MAX_THREADS < 2147483648) := by
  refine ⟨fun i hi => ?_, fun w hw p hp => ?_, fun w fuel hf => ?_,
    fun w hw p hp hN => ?_⟩
  · have hlt : i % MAX_THREADS < MAX_THREADS := Nat.mod_lt _ (by decide)
    have hmem : i ∈ positions (i % MAX_THREADS) N :=
      (mem_positions _ _ _ hlt).mpr ⟨hi, rfl⟩
    refine ⟨hmem, ?_, fun w hw hw2 => ?_⟩
    · exact List.count_eq_one_of_mem (loopPositions_nodup _ _ _) hmem
    · exact ((mem_positions _ _ _ hw).mp hw2).2.symm
  · exact ((mem_positions _ _ _ hw).mp hp).1
  · exact loopPositions_fuel _ _ _ _ (by omega) (by omega)
  · have := ((mem_positions _ _ _ hw).mp hp).1
    omega

/-- C1 at `N = 40`: thread 0 visits 0, 19, 38 and position 38 belongs to it. -/
theorem C1_partition_completeness_witness :
    (38 ∈ positions (38 % MAX_THREADS) 40 ∧
      (positions (38 % MAX_THREADS) 40).count 38 = 1 ∧
      ∀ w, w < MAX_THREADS → 38 ∈ positions w 40 → w = 38 % MAX_THREADS) ∧
    positions 0 40 = [0, 19, 38] ∧
    (List.range MAX_THREADS).flatMap (fun w => positions w 40)
      = [0, 19, 38, 1, 20, 39, 2, 21, 3, 22, 4, 23, 5, 24, 6, 25, 7, 26, 8, 27, 9, 28,
          10, 29, 11, 30, 12, 31, 13, 32, 14, 33, 15, 34, 16, 35, 17, 36, 18, 37] :=
  ⟨(C1_partition_completeness 40).1 38 (by decide), by decide, by decide⟩


theorem sumTo_congr (n : Nat) (f g : Nat → Nat) (h : ∀ j, j < n → g j = f j) :
    sumTo n g = sumTo n f := by
  induction n with
  | zero => simp [sumTo]
  | succ n ih =>
    have ih2 := ih fun j hj => h j (Nat.lt_succ_of_lt hj)
    unfold sumTo at *
    rw [List.range_succ, List.map_append, List.map_append, List.sum_append,
      List.sum_append, ih2]
    simp [h n (Nat.lt_succ_self n)]

theorem sumTo_point (n : Nat) (f g : Nat → Nat) (c d : Nat) (hc : c < n)
    (h : ∀ j, j < n → j ≠ c → g j = f j) (hd : g c = f c + d) :
    sumTo n g = sumTo n f + d := by
  induction n with
  | zero => omega
  | succ n ih =>
    by_cases hcn : c = n
    · subst hcn
      have h2 := sumTo_congr c f g fun j hj => h j (Nat.lt_succ_of_lt hj) (by omega)
      unfold sumTo at *
      rw [List.range_succ, List.map_append, List.map_append, List.sum_append,
        List.sum_append, h2]
      simp [hd]; omega
    · have ih2 := ih (by omega) fun j hj hne => h j (Nat.lt_succ_of_lt hj) hne
      have hn := h n (Nat.lt_succ_self n) (by omega)
      unfold sumTo at *
      rw [List.range_succ, List.map_append, List.map_append, List.sum_append,
        List.sum_append, ih2]
      simp [hn]; omega

theorem setAt_same {α : Type} (a : Nat → α) (k : Nat) (v : α) : setAt a k v k = v := by
  simp [setAt]

theorem setAt_other {α : Type} (a : Nat → α) (k j : Nat) (v : α) (h : j ≠ k) :
    setAt a k v j = a j := by
  simp [setAt, h]

theorem progressSum_same (n k : Nat) (v : Nat → Nat) (workers : Nat → Worker)
    (w : Nat) (ws : Worker)
    (h : ∀ j, j < n → j % MAX_THREADS = w → (passed k ws j ↔ passed k (workers w) j)) :
    progressSum n k v (setAt workers w ws) = progressSum n k v workers := by
  unfold progressSum
  apply sumTo_congr
  intro j hj
  by_cases hjw : j % MAX_THREADS = w
  · rw [hjw, setAt_same]
    simp only [h j hj hjw]
  · rw [setAt_other _ _ _ _ hjw]

theorem progressSum_add (n k : Nat) (v : Nat → Nat) (workers : Nat → Worker)
    (w : Nat) (ws : Worker) (c : Nat) (hc : c < n) (hcw : c % MAX_THREADS = w)
    (hold : ¬ passed k (workers w) c) (hnew : passed k ws c)
    (h : ∀ j, j < n → j % MAX_THREADS = w → j ≠ c →
      (passed k ws j ↔ passed k (workers w) j)) :
    progressSum n k v (setAt workers w ws) = progressSum n k v workers + v c := by
  unfold progressSum
  apply sumTo_point _ _ _ c (v c) hc
  · intro j hj hjc
    by_cases hjw : j % MAX_THREADS = w
    · rw [hjw, setAt_same]
      simp only [h j hj hjw hjc]
    · rw [setAt_other _ _ _ _ hjw]
  · rw [hcw, setAt_same, if_pos hnew, if_neg hold]; simp

theorem wrapInt_add (a b : Int) : wrapInt (wrapInt a + b) = wrapInt (a + b) := by
  unfold wrapInt; omega

theorem wrapInt_of_small (a : Int) (h0 : -2147483648 ≤ a) (h1 : a < 2147483648) :
    wrapInt a = a := by
  unfold wrapInt; omega

theorem step_skip (files : List InputFile) (codec : Codec) (st : State) (w : Nat)
    (h : st.aborted = true ∨ MAX_THREADS ≤ w) : step files codec st w = st := by
  simp only [step, if_pos h]

theorem itemData_eq (files : List InputFile) (j : Nat) (h : j < files.length) :
    itemData files j = files[j].content.take BUFFER_SIZE := by
  simp [itemData, List.getElem?_eq_getElem h]

theorem itemOpens_eq (files : List InputFile) (j : Nat) (h : j < files.length) :
    itemOpens files j = files[j].fopen_ok := by
  simp [itemOpens, List.getElem?_eq_getElem h]

/-- Rebuilding the invariant after thread `w` has taken a step that did not
fail: the obligations are those about the new state of thread `w` only. -/
theorem Inv.update {files : List InputFile} {codec : Codec} {st : State}
    (hinv : Inv files codec st) (w : Nat) (hw : w < MAX_THREADS) (ws : Worker)
    (ti tout : Int) (tb : Nat → Option (List Byte))
    (h1 : ws.i % MAX_THREADS = w)
    (h2 : 1 ≤ ws.pc.rank → ws.i < files.length)
    (h3 : ws.pc = Phase.returned → files.length ≤ ws.i)
    (h4 : ws.pc = Phase.addIn ∨ ws.pc = Phase.compress →
      ws.nbytes = (itemData files ws.i).length ∧
      ws.buffer_in.take ws.nbytes = itemData files ws.i)
    (h5 : ws.pc = Phase.store ∨ ws.pc = Phase.addOut →
      ws.nbytes_zipped = (itemStream files codec ws.i).length)
    (h6 : ws.pc = Phase.store →
      ws.buffer_out.take ws.nbytes_zipped = itemStream files codec ws.i)
    (h7 : ti = wrapInt (progressSum files.length 2 (fun j => (itemData files j).length)
      (setAt st.workers w ws) : Nat))
    (h8 : tout = wrapInt (progressSum files.length 5
      (fun j => (itemStream files codec j).length) (setAt st.workers w ws) : Nat))
    (h9 : ∀ j, tb j = if j < files.length ∧ passed 4 (setAt st.workers w ws (j % MAX_THREADS)) j
      then some (itemEntry files codec j) else none)
    (h10 : ∀ j, j < files.length → j % MAX_THREADS = w → passed 1 ws j →
      itemOpens files j = true)
    (h11 : ∀ j, j < files.length → j % MAX_THREADS = w → passed 3 ws j →
      (itemStream files codec j).length ≤ BUFFER_SIZE) :
    Inv files codec
      { workers := setAt st.workers w ws, total_in := ti, total_out := tout,
        shared_compressed_files := tb, aborted := st.aborted } := by
  constructor
  · intro w2 hw2
    by_cases e : w2 = w
    · subst e; simpa [setAt] using h1
    · simpa [setAt, e] using hinv.stripe w2 hw2
  · intro w2 hw2
    by_cases e : w2 = w
    · subst e; simpa [setAt] using h2
    · simpa [setAt, e] using hinv.inLoop w2 hw2
  · intro w2 hw2
    by_cases e : w2 = w
    · subst e; simpa [setAt] using h3
    · simpa [setAt, e] using hinv.atEnd w2 hw2
  · intro w2 hw2
    by_cases e : w2 = w
    · subst e; simpa [setAt] using h4
    · simpa [setAt, e] using hinv.readOk w2 hw2
  · intro w2 hw2
    by_cases e : w2 = w
    · subst e; simpa [setAt] using h5
    · simpa [setAt, e] using hinv.zipOk w2 hw2
  · intro w2 hw2
    by_cases e : w2 = w
    · subst e; simpa [setAt] using h6
    · simpa [setAt, e] using hinv.outOk w2 hw2
  · exact h7
  · exact h8
  · exact h9
  · intro j hj
    by_cases e : j % MAX_THREADS = w
    · simpa [setAt, e] using h10 j hj e
    · simpa [setAt, e] using hinv.opened j hj
  · intro j hj
    by_cases e : j % MAX_THREADS = w
    · simpa [setAt, e] using h11 j hj e
    · simpa [setAt, e] using hinv.fitted j hj
  · exact hinv.abortedBad

/-- The table formula is kept by a step of thread `w` that does not move any
position of `w` across the `store` phase. -/
theorem table_same {files : List InputFile} {codec : Codec} {st : State}
    (hinv : Inv files codec st) (w : Nat) (ws : Worker)
    (h : ∀ j, j < files.length → j % MAX_THREADS = w →
      (passed 4 ws j ↔ passed 4 (st.workers w) j)) :
    ∀ j, st.shared_compressed_files j =
      if j < files.length ∧ passed 4 (setAt st.workers w ws (j % MAX_THREADS)) j
      then some (itemEntry files codec j) else none := by
  intro j
  rw [hinv.table j]
  by_cases hj : j < files.length
  · by_cases e : j % MAX_THREADS = w
    · simp only [e, setAt_same, h j hj e]
    · rw [setAt_other _ _ _ _ e]
  · simp [hj]

/-- A failing `assert` keeps everything but the abort flag. -/
theorem Inv.abort {files : List InputFile} {codec : Codec} {st : State}
    (hinv : Inv files codec st)
    (hbad : ∃ j, j < files.length ∧ ¬ itemOk files codec j) :
    Inv files codec { st with aborted := true } :=
  { stripe := hinv.stripe, inLoop := hinv.inLoop, atEnd := hinv.atEnd,
    readOk := hinv.readOk, zipOk := hinv.zipOk, outOk := hinv.outOk,
    totalIn := hinv.totalIn, totalOut := hinv.totalOut, table := hinv.table,
    opened := hinv.opened, fitted := hinv.fitted, abortedBad := fun _ => hbad }

theorem step_inv (files : List InputFile) (codec : Codec) (st : State) (w : Nat)
    (hinv : Inv files codec st) : Inv files codec (step files codec st w) := by
  by_cases hg : st.aborted = true ∨ MAX_THREADS ≤ w
  · rw [step_skip _ _ _ _ hg]; exact hinv
  · have hw : w < MAX_THREADS := by
      rcases Nat.lt_or_ge w MAX_THREADS with h | h
      · exact h
      · exact absurd (Or.inr h) hg
    have hstripe := hinv.stripe w hw
    simp only [MAX_THREADS] at hstripe
    cases hpc : (st.workers w).pc with
    | loopTest =>
      by_cases hlt : (st.workers w).i < files.length
      · by_cases hop : files[(st.workers w).i].fopen_ok = true
        · have hs : step files codec st w =
              { workers := setAt st.workers w
                  { st.workers w with
                    pc := Phase.addIn
                    nbytes := (files[(st.workers w).i].content.take BUFFER_SIZE).length
                    buffer_in := files[(st.workers w).i].content.take BUFFER_SIZE ++
                      (st.workers w).buffer_in.drop
                        (files[(st.workers w).i].content.take BUFFER_SIZE).length },
                total_in := st.total_in, total_out := st.total_out,
                shared_compressed_files := st.shared_compressed_files,
                aborted := st.aborted } := by
            simp only [step, if_neg hg, hpc, dif_pos hlt, if_pos hop]
          rw [hs]
          apply hinv.update w hw
          · exact hinv.stripe w hw
          · intro _; exact hlt
          · intro h; cases h
          · intro _
            simp only [itemData_eq files _ hlt]
            exact ⟨trivial, List.take_left _ _⟩
          · intro h; rcases h with h | h <;> cases h
          · intro h; cases h
          · rw [hinv.totalIn, progressSum_same]
            intro j hj hjw
            simp only [passed, hpc, Phase.rank]
            omega
          · rw [hinv.totalOut, progressSum_same]
            intro j hj hjw
            simp only [passed, hpc, Phase.rank]
            omega
          · apply table_same hinv
            intro j hj hjw
            simp only [passed, hpc, Phase.rank]
            omega
          · intro j hj hjw hp
            simp only [passed, Phase.rank] at hp
            rcases hp with hp | ⟨hp, -⟩
            · exact hinv.opened j hj (by rw [hjw]; exact Or.inl hp)
            · rw [hp, itemOpens_eq files _ hlt]; exact hop
          · intro j hj hjw hp
            simp only [passed, Phase.rank] at hp
            exact hinv.fitted j hj (by rw [hjw]; exact Or.inl (by omega))
        · have hs : step files codec st w = { st with aborted := true } := by
            simp only [step, if_neg hg, hpc, dif_pos hlt, if_neg hop]
          rw [hs]
          refine hinv.abort ⟨(st.workers w).i, hlt, fun h => hop ?_⟩
          rw [← itemOpens_eq files _ hlt]; exact h.1
      · have hs : step files codec st w =
            { workers := setAt st.workers w { st.workers w with pc := Phase.returned },
              total_in := st.total_in, total_out := st.total_out,
              shared_compressed_files := st.shared_compressed_files,
              aborted := st.aborted } := by
          simp only [step, if_neg hg, hpc, dif_neg hlt]
        rw [hs]
        apply hinv.update w hw
        · exact hinv.stripe w hw
        · intro h; simp [Phase.rank] at h
        · intro _; exact Nat.le_of_not_lt hlt
        · intro h; rcases h with h | h <;> cases h
        · intro h; rcases h with h | h <;> cases h
        · intro h; cases h
        · rw [hinv.totalIn, progressSum_same]
          intro j hj hjw
          simp only [passed, hpc, Phase.rank]
        · rw [hinv.totalOut, progressSum_same]
          intro j hj hjw
          simp only [passed, hpc, Phase.rank]
        · apply table_same hinv
          intro j hj hjw
          simp only [passed, hpc, Phase.rank]
        · intro j hj hjw hp
          simp only [passed, Phase.rank] at hp
          exact hinv.opened j hj (by rw [hjw]; exact Or.inl (by omega))
        · intro j hj hjw hp
          simp only [passed, Phase.rank] at hp
          exact hinv.fitted j hj (by rw [hjw]; exact Or.inl (by omega))
    | addIn =>
      have hlt : (st.workers w).i < files.length :=
        hinv.inLoop w hw (by rw [hpc]; simp [Phase.rank])
      have hrd := hinv.readOk w hw (Or.inl hpc)
      have hs : step files codec st w =
          { workers := setAt st.workers w { st.workers w with pc := Phase.compress },
            total_in := wrapInt (st.total_in + (st.workers w).nbytes),
            total_out := st.total_out,
            shared_compressed_files := st.shared_compressed_files,
            aborted := st.aborted } := by
        simp only [step, if_neg hg, hpc]
      rw [hs]
      apply hinv.update w hw
      · exact hinv.stripe w hw
      · intro _; exact hlt
      · intro h; cases h
      · intro _; exact hrd
      · intro h; rcases h with h | h <;> cases h
      · intro h; cases h
      · rw [hinv.totalIn, wrapInt_add,
          progressSum_add _ _ _ _ w _ (st.workers w).i hlt (hinv.stripe w hw)]
        · rw [hrd.1]; push_cast; rfl
        · simp only [passed, hpc, Phase.rank]; omega
        · simp [passed, Phase.rank]
        · intro j hj hjw hne
          simp only [passed, hpc, Phase.rank]
          omega
      · rw [hinv.totalOut, progressSum_same]
        intro j hj hjw
        simp only [passed, hpc, Phase.rank]
        omega
      · apply table_same hinv
        intro j hj hjw
        simp only [passed, hpc, Phase.rank]
        omega
      · intro j hj hjw hp
        simp only [passed, Phase.rank] at hp
        refine hinv.opened j hj ?_
        rw [hjw]; simp only [passed, hpc, Phase.rank]; omega
      · intro j hj hjw hp
        simp only [passed, Phase.rank] at hp
        exact hinv.fitted j hj (by rw [hjw]; exact Or.inl (by omega))
    | compress =>
      have hlt : (st.workers w).i < files.length :=
        hinv.inLoop w hw (by rw [hpc]; simp [Phase.rank])
      have hrd := hinv.readOk w hw (Or.inr hpc)
      by_cases hfit : (itemStream files codec (st.workers w).i).length ≤ BUFFER_SIZE
      · have hs : step files codec st w =
            { workers := setAt st.workers w
                { st.workers w with
                  pc := Phase.store
                  nbytes_zipped := BUFFER_SIZE - (BUFFER_SIZE -
                    (itemStream files codec (st.workers w).i).length)
                  buffer_out := itemStream files codec (st.workers w).i ++
                    (st.workers w).buffer_out.drop
                      (itemStream files codec (st.workers w).i).length },
              total_in := st.total_in, total_out := st.total_out,
              shared_compressed_files := st.shared_compressed_files,
              aborted := st.aborted } := by
          unfold itemStream at hfit ⊢
          simp only [step, if_neg hg, hpc, deflate, hrd.2, if_pos hfit, if_true]
        rw [hs]
        apply hinv.update w hw
        · exact hinv.stripe w hw
        · intro _; exact hlt
        · intro h; cases h
        · intro h; rcases h with h | h <;> cases h
        · intro _
          show BUFFER_SIZE - (BUFFER_SIZE -
              (itemStream files codec (st.workers w).i).length)
              = (itemStream files codec (st.workers w).i).length
          omega
        · intro _
          show List.take (BUFFER_SIZE - (BUFFER_SIZE -
              (itemStream files codec (st.workers w).i).length))
              (itemStream files codec (st.workers w).i ++ _)
              = itemStream files codec (st.workers w).i
          have e : BUFFER_SIZE - (BUFFER_SIZE -
              (itemStream files codec (st.workers w).i).length)
              = (itemStream files codec (st.workers w).i).length := by omega
          rw [e]; exact List.take_left _ _
        · rw [hinv.totalIn, progressSum_same]
          intro j hj hjw
          simp only [passed, hpc, Phase.rank]
          omega
        · rw [hinv.totalOut, progressSum_same]
          intro j hj hjw
          simp only [passed, hpc, Phase.rank]
          omega
        · apply table_same hinv
          intro j hj hjw
          simp only [passed, hpc, Phase.rank]
          omega
        · intro j hj hjw hp
          simp only [passed, Phase.rank] at hp
          refine hinv.opened j hj ?_
          rw [hjw]; simp only [passed, hpc, Phase.rank]; omega
        · intro j hj hjw hp
          simp only [passed, Phase.rank] at hp
          rcases hp with hp | ⟨hp, -⟩
          · exact hinv.fitted j hj (by rw [hjw]; exact Or.inl hp)
          · rw [hp]; exact hfit
      · have hs : step files codec st w = { st with aborted := true } := by
          unfold itemStream at hfit
          simp only [step, if_neg hg, hpc, deflate, hrd.2, if_neg hfit]
          simp [Z_OK, Z_STREAM_END]
        rw [hs]
        exact hinv.abort ⟨(st.workers w).i, hlt, fun h => hfit h.2⟩
    | store =>
      have hlt : (st.workers w).i < files.length :=
        hinv.inLoop w hw (by rw [hpc]; simp [Phase.rank])
      have hz := hinv.zipOk w hw (Or.inl hpc)
      have ho := hinv.outOk w hw hpc
      have hs : step files codec st w =
          { workers := setAt st.workers w { st.workers w with pc := Phase.addOut },
            total_in := st.total_in, total_out := st.total_out,
            shared_compressed_files := setAt st.shared_compressed_files (st.workers w).i
              (some (intBytes (st.workers w).nbytes_zipped ++
                (st.workers w).buffer_out.take (st.workers w).nbytes_zipped)),
            aborted := st.aborted } := by
        simp only [step, if_neg hg, hpc]
      rw [hs]
      apply hinv.update w hw
      · exact hinv.stripe w hw
      · intro _; exact hlt
      · intro h; cases h
      · intro h; rcases h with h | h <;> cases h
      · intro _; exact hz
      · intro h; cases h
      · rw [hinv.totalIn, progressSum_same]
        intro j hj hjw
        simp only [passed, hpc, Phase.rank]
        omega
      · rw [hinv.totalOut, progressSum_same]
        intro j hj hjw
        simp only [passed, hpc, Phase.rank]
        omega
      · intro j
        by_cases hji : j = (st.workers w).i
        · subst hji
          rw [setAt_same, hinv.stripe w hw, setAt_same, ho, hz, if_pos]
          · rfl
          · exact ⟨hlt, by simp [passed, Phase.rank]⟩
        · rw [setAt_other _ _ _ _ hji, hinv.table j]
          by_cases e : j % MAX_THREADS = w
          · have key : ∀ ws2 : Worker, ws2.i = (st.workers w).i →
                (passed 4 ws2 j ↔ passed 4 (st.workers w) j) := by
              intro ws2 h2
              simp only [passed, hpc, Phase.rank, h2]
              omega
            rw [e, setAt_same]
            have k2 := key { st.workers w with pc := Phase.addOut } rfl
            by_cases hp : j < files.length ∧ passed 4 (st.workers w) j
            · rw [if_pos hp, if_pos ⟨hp.1, k2.mpr hp.2⟩]
            · rw [if_neg hp, if_neg (fun h => hp ⟨h.1, k2.mp h.2⟩)]
          · rw [setAt_other _ _ _ _ e]
      · intro j hj hjw hp
        simp only [passed, Phase.rank] at hp
        refine hinv.opened j hj ?_
        rw [hjw]; simp only [passed, hpc, Phase.rank]; omega
      · intro j hj hjw hp
        simp only [passed, Phase.rank] at hp
        refine hinv.fitted j hj ?_
        rw [hjw]; simp only [passed, hpc, Phase.rank]; omega
    | addOut =>
      have hlt : (st.workers w).i < files.length :=
        hinv.inLoop w hw (by rw [hpc]; simp [Phase.rank])
      have hz := hinv.zipOk w hw (Or.inr hpc)
      have hs : step files codec st w =
          { workers := setAt st.workers w
              { st.workers w with
                pc := Phase.loopTest, i := (st.workers w).i + MAX_THREADS },
            total_in := st.total_in,
            total_out := wrapInt (st.total_out + (st.workers w).nbytes_zipped),
            shared_compressed_files := st.shared_compressed_files,
            aborted := st.aborted } := by
        simp only [step, if_neg hg, hpc]
      rw [hs]
      apply hinv.update w hw
      · show ((st.workers w).i + MAX_THREADS) % MAX_THREADS = w
        simp only [MAX_THREADS]; omega
      · intro h; simp [Phase.rank] at h
      · intro h; cases h
      · intro h; rcases h with h | h <;> cases h
      · intro h; rcases h with h | h <;> cases h
      · intro h; cases h
      · rw [hinv.totalIn, progressSum_same]
        intro j hj hjw
        simp only [passed, hpc, Phase.rank, MAX_THREADS] at hjw ⊢
        omega
      · rw [hinv.totalOut, wrapInt_add,
          progressSum_add _ _ _ _ w _ (st.workers w).i hlt (hinv.stripe w hw)]
        · rw [hz]; push_cast; rfl
        · simp only [passed, hpc, Phase.rank]; omega
        · simp [passed, Phase.rank, MAX_THREADS]
        · intro j hj hjw hne
          simp only [passed, hpc, Phase.rank, MAX_THREADS] at hjw ⊢
          omega
      · apply table_same hinv
        intro j hj hjw
        simp only [passed, hpc, Phase.rank, MAX_THREADS] at hjw ⊢
        omega
      · intro j hj hjw hp
        simp only [passed, Phase.rank, MAX_THREADS] at hp hjw
        refine hinv.opened j hj ?_
        rw [show j % MAX_THREADS = w from hjw]
        simp only [passed, hpc, Phase.rank]; omega
      · intro j hj hjw hp
        simp only [passed, Phase.rank, MAX_THREADS] at hp hjw
        refine hinv.fitted j hj ?_
        rw [show j % MAX_THREADS = w from hjw]
        simp only [passed, hpc, Phase.rank]; omega
    | returned =>
      have hs : step files codec st w = st := by
        simp only [step, if_neg hg, hpc]
      rw [hs]; exact hinv

theorem sumTo_zero (n : Nat) (f : Nat → Nat) (h : ∀ j, j < n → f j = 0) :
    sumTo n f = 0 := by
  rw [sumTo_congr n (fun _ => 0) f h]
  simp [sumTo]

theorem init_inv (files : List InputFile) (codec : Codec)
    (heap : Nat → List Byte × List Byte) : Inv files codec (initState heap) := by
  have hnot : ∀ k j : Nat, 1 ≤ k →
      ¬ passed k ((initState heap).workers (j % MAX_THREADS)) j := by
    intro k j hk
    simp only [passed, initState, Phase.rank, MAX_THREADS]
    omega
  constructor
  · intro w hw; exact Nat.mod_eq_of_lt hw
  · intro w _ h; simp [initState, Phase.rank] at h
  · intro w _ h; simp [initState] at h
  · intro w _ h; simp [initState] at h
  · intro w _ h; simp [initState] at h
  · intro w _ h; simp [initState] at h
  · rw [progressSum, sumTo_zero]
    · rfl
    · intro j _; rw [if_neg (hnot 2 j (by omega))]
  · rw [progressSum, sumTo_zero]
    · rfl
    · intro j _; rw [if_neg (hnot 5 j (by omega))]
  · intro j
    rw [if_neg fun h => hnot 4 j (by omega) h.2]
    rfl
  · intro j _ h; exact absurd h (hnot 1 j (by omega))
  · intro j _ h; exact absurd h (hnot 3 j (by omega))
  · intro h; simp [initState] at h

theorem run_inv (files : List InputFile) (codec : Codec) (sched : List Nat) :
    ∀ st, Inv files codec st → Inv files codec (runWorkers files codec sched st) := by
  induction sched with
  | nil => intro st h; exact h
  | cons w s ih =>
    intro st h
    exact ih _ (step_inv files codec st w h)

theorem run_append (files : List InputFile) (codec : Codec) (s1 s2 : List Nat)
    (st : State) :
    runWorkers files codec (s1 ++ s2) st
      = runWorkers files codec s2 (runWorkers files codec s1 st) := by
  simp [runWorkers, List.foldl_append]

theorem run_cons (files : List InputFile) (codec : Codec) (w : Nat) (s : List Nat)
    (st : State) :
    runWorkers files codec (w :: s) st
      = runWorkers files codec s (step files codec st w) := rfl

theorem run_aborted (files : List InputFile) (codec : Codec) (sched : List Nat) :
    ∀ st, st.aborted = true → runWorkers files codec sched st = st := by
  induction sched with
  | nil => intro st _; rfl
  | cons w s ih =>
    intro st h
    rw [run_cons, step_skip _ _ _ _ (Or.inl h)]
    exact ih st h

theorem allReturned_iff (st : State) :
    allReturned st = true ↔
      ∀ w, w < MAX_THREADS → (st.workers w).pc = Phase.returned := by
  simp [allReturned, List.all_eq_true]

/-- Once every thread has returned, every position has been taken through the
whole loop body. -/
theorem passed_of_returned {files : List InputFile} {codec : Codec} {st : State}
    (hinv : Inv files codec st) (hall : allReturned st = true) (k j : Nat)
    (hj : j < files.length) : passed k (st.workers (j % MAX_THREADS)) j := by
  have hw : j % MAX_THREADS < MAX_THREADS := Nat.mod_lt _ (by decide)
  have h := hinv.atEnd _ hw ((allReturned_iff st).mp hall _ hw)
  exact Or.inl (by omega)

theorem progressSum_of_returned {files : List InputFile} {codec : Codec} {st : State}
    (hinv : Inv files codec st) (hall : allReturned st = true) (k : Nat)
    (v : Nat → Nat) :
    progressSum files.length k v st.workers = sumTo files.length v := by
  unfold progressSum
  apply sumTo_congr
  intro j hj
  rw [if_pos (passed_of_returned hinv hall k j hj)]

theorem map_range_lookup {α β : Type} (g : Option α → β) (l : List α) :
    (List.range l.length).map (fun j => g l[j]?) = l.map fun a => g (some a) := by
  induction l with
  | nil => simp
  | cons a l ih =>
    rw [List.length_cons, List.range_succ_eq_map, List.map_cons, List.map_map]
    simp only [List.map_cons, List.getElem?_cons_zero]
    congr 1
    rw [← ih]
    apply List.map_congr_left
    intro j _
    simp

/-- The number of bytes `fread` transfers from a file. -/
theorem length_take_content (f : InputFile) :
    (f.content.take BUFFER_SIZE).length = min f.content.length BUFFER_SIZE := by
  rw [List.length_take]; exact Nat.min_comm _ _

theorem sumTo_itemData (files : List InputFile) :
    sumTo files.length (fun j => (itemData files j).length)
      = (files.map fun f => min f.content.length BUFFER_SIZE).sum := by
  have h := map_range_lookup
    (fun o : Option InputFile =>
      (match o with
        | some f => f.content.take BUFFER_SIZE
        | none => []).length) files
  unfold sumTo
  simp only [length_take_content] at h
  rw [← h]
  rfl

theorem readInt_intBytes (n : Nat) (s : List Byte) (h : n < 4294967296) :
    readInt (intBytes n ++ s) = n := by
  simp only [readInt, intBytes, List.cons_append, List.getD_cons_zero,
    List.getD_cons_succ]
  omega

theorem writeEntry_frame (s : List Byte) (h : s.length ≤ BUFFER_SIZE) :
    writeEntry (some (intBytes s.length ++ s)) = intBytes s.length ++ s := by
  have h4 : (intBytes s.length).length = 4 := rfl
  have hlt : s.length < 4294967296 := by simp only [BUFFER_SIZE] at h; omega
  simp only [writeEntry]
  rw [readInt_intBytes _ _ hlt, List.take_left' h4, List.drop_left' h4, List.take_length]

theorem itemStream_eq (files : List InputFile) (codec : Codec) (j : Nat)
    (h : j < files.length) :
    itemStream files codec j = codec.stream (files[j].content.take BUFFER_SIZE) := by
  simp [itemStream, itemData_eq files j h]

theorem itemOk_iff_fileOk (files : List InputFile) (codec : Codec) :
    (∀ j, j < files.length → itemOk files codec j) ↔ ∀ f, f ∈ files → fileOk codec f := by
  constructor
  · intro h f hf
    obtain ⟨j, hj, rfl⟩ := List.getElem_of_mem hf
    have := h j hj
    simpa [itemOk, fileOk, itemOpens_eq files j hj, itemStream_eq files codec j hj]
      using this
  · intro h j hj
    have := h files[j] (List.getElem_mem hj)
    simpa [itemOk, fileOk, itemOpens_eq files j hj, itemStream_eq files codec j hj]
      using this

theorem sumTo_itemStream (files : List InputFile) (codec : Codec) :
    sumTo files.length (fun j => (itemStream files codec j).length)
      = sumOut codec files := by
  have h := map_range_lookup
    (fun o : Option InputFile =>
      (codec.stream (match o with
        | some f => f.content.take BUFFER_SIZE
        | none => [])).length) files
  unfold sumTo sumOut
  rw [← h]
  rfl

theorem flatMap_itemEntry (files : List InputFile) (codec : Codec) :
    (List.range files.length).flatMap (fun j => itemEntry files codec j)
      = specArchive codec files := by
  have h := map_range_lookup
    (fun o : Option InputFile =>
      intBytes (codec.stream (match o with
        | some f => f.content.take BUFFER_SIZE
        | none => [])).length ++ codec.stream (match o with
        | some f => f.content.take BUFFER_SIZE
        | none => [])) files
  unfold specArchive
  simp only [List.flatMap]
  have e : (fun f => specFrame codec f) = fun a : InputFile =>
      intBytes (codec.stream (a.content.take BUFFER_SIZE)).length
        ++ codec.stream (a.content.take BUFFER_SIZE) := rfl
  rw [show List.map (specFrame codec) files = List.map (fun f => specFrame codec f) files
    from rfl, e, ← h]
  rfl

/-- The archive written from the full table is the prescribed archive, when
every stream fits the output buffer. -/
theorem writeArchive_fullTable (files : List InputFile) (codec : Codec)
    (hfit : ∀ j, j < files.length → (itemStream files codec j).length ≤ BUFFER_SIZE) :
    writeArchive files.length (fullTable files codec) = specArchive codec files := by
  rw [← flatMap_itemEntry]
  unfold writeArchive
  simp only [List.flatMap]
  congr 1
  apply List.map_congr_left
  intro j hj
  have hj2 : j < files.length := List.mem_range.mp hj
  simp only [fullTable, if_pos hj2, itemEntry]
  exact writeEntry_frame _ (hfit j hj2)

/-- The state in which every thread has returned without a failed assertion:
counters, table and the fact that every file passed. -/
theorem final_state {files : List InputFile} {codec : Codec} {st : State}
    (hinv : Inv files codec st) (hall : allReturned st = true) :
    st.total_in = wrapInt (sumIn files) ∧
    st.total_out = wrapInt (sumOut codec files) ∧
    st.shared_compressed_files = fullTable files codec ∧
    (∀ f, f ∈ files → fileOk codec f) := by
  refine ⟨?_, ?_, ?_, ?_⟩
  · rw [hinv.totalIn, progressSum_of_returned hinv hall, sumTo_itemData]; rfl
  · rw [hinv.totalOut, progressSum_of_returned hinv hall, sumTo_itemStream]
  · funext j
    rw [hinv.table j]
    unfold fullTable
    by_cases hj : j < files.length
    · rw [if_pos ⟨hj, passed_of_returned hinv hall 4 j hj⟩, if_pos hj]
    · rw [if_neg (fun h => hj h.1), if_neg hj]
  · rw [← itemOk_iff_fileOk]
    intro j hj
    exact ⟨hinv.opened j hj (passed_of_returned hinv hall 1 j hj),
      hinv.fitted j hj (passed_of_returned hinv hall 3 j hj)⟩

theorem step_progress {files : List InputFile} {codec : Codec} {st : State}
    (hinv : Inv files codec st) (w : Nat) (hw : w < MAX_THREADS) :
    settled (step files codec st w) w ∨
      fuelLeft files.length ((step files codec st w).workers w)
        < fuelLeft files.length (st.workers w) := by
  by_cases hab : st.aborted = true
  · left; left; rw [step_skip _ _ _ _ (Or.inl hab)]; exact hab
  · have hg : ¬ (st.aborted = true ∨ MAX_THREADS ≤ w) := by
      rintro (h | h)
      · exact hab h
      · omega
    cases hpc : (st.workers w).pc with
    | loopTest =>
      by_cases hlt : (st.workers w).i < files.length
      · by_cases hop : files[(st.workers w).i].fopen_ok = true
        · right
          simp only [step, if_neg hg, hpc, dif_pos hlt, if_pos hop, setAt_same, fuelLeft]
          omega
        · left; left
          simp only [step, if_neg hg, hpc, dif_pos hlt, if_neg hop]
      · left; right
        simp only [step, if_neg hg, hpc, dif_neg hlt, setAt_same]
    | addIn =>
      have hlt := hinv.inLoop w hw (by rw [hpc]; simp [Phase.rank])
      right
      simp only [step, if_neg hg, hpc, setAt_same, fuelLeft]
      omega
    | compress =>
      have hlt := hinv.inLoop w hw (by rw [hpc]; simp [Phase.rank])
      by_cases hr : (deflate codec (st.workers w).buffer_in (st.workers w).nbytes
          (st.workers w).buffer_out BUFFER_SIZE).ret = Z_STREAM_END
      · right
        simp only [step, if_neg hg, hpc, if_pos hr, setAt_same, fuelLeft]
        omega
      · left; left
        simp only [step, if_neg hg, hpc, if_neg hr]
    | store =>
      have hlt := hinv.inLoop w hw (by rw [hpc]; simp [Phase.rank])
      right
      simp only [step, if_neg hg, hpc, setAt_same, fuelLeft]
      omega
    | addOut =>
      have hlt := hinv.inLoop w hw (by rw [hpc]; simp [Phase.rank])
      right
      simp only [step, if_neg hg, hpc, setAt_same, fuelLeft]
      simp only [MAX_THREADS]
      omega
    | returned =>
      left; right
      simp only [step, if_neg hg, hpc]

theorem settled_step (files : List InputFile) (codec : Codec) (st : State)
    (w v : Nat) (h : settled st v) : settled (step files codec st w) v := by
  rcases h with h | h
  · rw [step_skip _ _ _ _ (Or.inl h)]; exact Or.inl h
  · by_cases hg : st.aborted = true ∨ MAX_THREADS ≤ w
    · rw [step_skip _ _ _ _ hg]; exact Or.inr h
    · by_cases e : v = w
      · subst e
        right
        simp only [step, if_neg hg, h]
      · cases hpc : (st.workers w).pc <;>
          simp only [step, if_neg hg, hpc, settled] <;>
          (try split_ifs) <;>
          simp [setAt, e, h]

theorem settled_run (files : List InputFile) (codec : Codec) (sched : List Nat)
    (v : Nat) : ∀ st, settled st v → settled (runWorkers files codec sched st) v := by
  induction sched with
  | nil => intro st h; exact h
  | cons w s ih => intro st h; exact ih _ (settled_step files codec st w v h)

theorem fuelLeft_zero {files : List InputFile} {codec : Codec} {st : State}
    (hinv : Inv files codec st) (w : Nat) (hw : w < MAX_THREADS)
    (h : fuelLeft files.length (st.workers w) = 0) :
    (st.workers w).pc = Phase.returned := by
  cases hpc : (st.workers w).pc with
  | returned => rfl
  | loopTest => simp only [fuelLeft, hpc] at h; omega
  | addIn =>
    have hlt := hinv.inLoop w hw (by rw [hpc]; simp [Phase.rank])
    simp only [fuelLeft, hpc] at h; omega
  | compress =>
    have hlt := hinv.inLoop w hw (by rw [hpc]; simp [Phase.rank])
    simp only [fuelLeft, hpc] at h; omega
  | store =>
    have hlt := hinv.inLoop w hw (by rw [hpc]; simp [Phase.rank])
    simp only [fuelLeft, hpc] at h; omega
  | addOut =>
    have hlt := hinv.inLoop w hw (by rw [hpc]; simp [Phase.rank])
    simp only [fuelLeft, hpc] at h; omega

theorem fuelLeft_le (nfiles : Nat) (ws : Worker) :
    fuelLeft nfiles ws ≤ 5 * nfiles + 1 := by
  unfold fuelLeft
  split <;> omega

/-- Letting thread `w` take as many steps as it has fuel left settles it. -/
theorem run_replicate_settled (files : List InputFile) (codec : Codec) (w : Nat)
    (hw : w < MAX_THREADS) (k : Nat) : ∀ st, Inv files codec st →
      fuelLeft files.length (st.workers w) ≤ k →
      settled (runWorkers files codec (List.replicate k w) st) w := by
  induction k with
  | zero =>
    intro st hinv h
    exact Or.inr (fuelLeft_zero hinv w hw (by omega))
  | succ k ih =>
    intro st hinv h
    rw [List.replicate_succ, run_cons]
    rcases step_progress hinv w hw with hs | hs
    · exact settled_run _ _ _ _ _ hs
    · exact ih _ (step_inv files codec st w hinv) (by omega)

theorem order_settled (files : List InputFile) (codec : Codec) (order : List Nat) :
    ∀ st, Inv files codec st → ∀ w, w ∈ order → w < MAX_THREADS →
      settled (runWorkers files codec (orderSchedule order files.length) st) w := by
  induction order with
  | nil => intro st _ w hw; simp at hw
  | cons a l ih =>
    intro st hinv w hw hlt
    unfold orderSchedule at ih ⊢
    rw [List.flatMap_cons, run_append]
    rcases List.mem_cons.mp hw with e | hmem
    · subst e
      exact settled_run _ _ _ _ _
        (run_replicate_settled files codec w hlt _ st hinv (fuelLeft_le _ _))
    · exact ih _ (run_inv files codec _ _ hinv) w hmem hlt

/-- Running the threads one after the other, in any order that names every
thread, is a complete schedule: afterwards the process has aborted or every
thread has returned. -/
theorem orderSchedule_complete (files : List InputFile) (codec : Codec)
    (heap : Nat → List Byte × List Byte) (order : List Nat)
    (hall : ∀ w, w < MAX_THREADS → w ∈ order) :
    (runWorkers files codec (orderSchedule order files.length)
      (initState heap)).aborted = true ∨
    allReturned (runWorkers files codec (orderSchedule order files.length)
      (initState heap)) = true := by
  by_cases hab : (runWorkers files codec (orderSchedule order files.length)
      (initState heap)).aborted = true
  · exact Or.inl hab
  · right
    rw [allReturned_iff]
    intro w hw
    rcases order_settled files codec order _ (init_inv files codec heap) w
      (hall w hw) hw with h | h
    · exact absurd h hab
    · exact h

theorem main_orderSchedule (files : List InputFile) (codec : Codec)
    (heap : Nat → List Byte × List Byte) (order : List Nat)
    (hall : ∀ w, w < MAX_THREADS → w ∈ order) :
    ∃ out, main files codec heap (orderSchedule order files.length) = some out := by
  by_cases hab : (runWorkers files codec (orderSchedule order files.length)
      (initState heap)).aborted = true
  · refine ⟨Outcome.aborted, ?_⟩
    simp only [main]
    rw [if_pos hab]
  · rcases orderSchedule_complete files codec heap order hall with h | h
    · exact absurd h hab
    · simp only [main]
      rw [if_neg hab, if_pos h]
      exact ⟨_, rfl⟩

theorem main_seqSchedule (files : List InputFile) (codec : Codec)
    (heap : Nat → List Byte × List Byte) :
    ∃ out, main files codec heap (seqSchedule files.length) = some out :=
  main_orderSchedule files codec heap _ fun _ hw => List.mem_range.mpr hw

/-- What a finished run returns: the process aborted and some file does not
pass the assertions, or every file passes and the archive, the counters and the
rate are those prescribed. -/
theorem main_some {files : List InputFile} {codec : Codec}
    {heap : Nat → List Byte × List Byte} {sched : List Nat} {out : Outcome}
    (h : main files codec heap sched = some out) :
    (out = Outcome.aborted ∧ ¬ ∀ f, f ∈ files → fileOk codec f) ∨
    (out = Outcome.finished (specArchive codec files) (wrapInt (sumIn files))
        (wrapInt (sumOut codec files))
        (compressionRate (wrapInt (sumIn files)) (wrapInt (sumOut codec files))) ∧
      (∀ f, f ∈ files → fileOk codec f) ∧
      (runWorkers files codec sched (initState heap)).aborted = false ∧
      (runWorkers files codec sched (initState heap)).shared_compressed_files
        = fullTable files codec) := by
  have hinv := run_inv files codec sched _ (init_inv files codec heap)
  simp only [main] at h
  by_cases hab : (runWorkers files codec sched (initState heap)).aborted = true
  · left
    rw [if_pos hab] at h
    refine ⟨(Option.some.inj h).symm, ?_⟩
    rw [← itemOk_iff_fileOk]
    obtain ⟨j, hj, hbad⟩ := hinv.abortedBad hab
    exact fun hall => hbad (hall j hj)
  · right
    by_cases hall : allReturned (runWorkers files codec sched (initState heap)) = true
    · rw [if_neg hab, if_pos hall] at h
      obtain ⟨h1, h2, h3, h4⟩ := final_state hinv hall
      refine ⟨?_, h4, by simpa using hab, h3⟩
      rw [← Option.some.inj h, h1, h2, h3, writeArchive_fullTable]
      intro j hj
      exact ((itemOk_iff_fileOk files codec).mpr h4 j hj).2
    · rw [if_neg hab, if_neg hall] at h
      cases h

theorem deflate_ret_iff (codec : Codec) (next_in : List Byte) (avail_in : Nat)
    (next_out : List Byte) (avail_out : Nat) :
    (deflate codec next_in avail_in next_out avail_out).ret = Z_STREAM_END ↔
      (codec.stream (next_in.take avail_in)).length ≤ avail_out := by
  unfold deflate
  by_cases h : (codec.stream (next_in.take avail_in)).length ≤ avail_out
  · simp only [h, if_true]
  · simp only [h, if_false, iff_false]
    simp [Z_OK, Z_STREAM_END]

theorem splitRecords_nil (fuel : Nat) : splitRecords fuel [] = some [] := by
  cases fuel <;> rfl

theorem splitRecords_cons (fuel : Nat) (a : Byte) (as : List Byte) :
    splitRecords (fuel + 1) (a :: as) =
      if (a :: as).length < 4 then none
      else if ((a :: as).drop 4).length < readInt (a :: as) then none
      else
        (splitRecords fuel (((a :: as).drop 4).drop (readInt (a :: as)))).map
          fun rs => ((a :: as).drop 4).take (readInt (a :: as)) :: rs := rfl

theorem splitRecords_frame (fuel : Nat) (s rest : List Byte)
    (h : s.length < 4294967296) :
    splitRecords (fuel + 1) (intBytes s.length ++ (s ++ rest))
      = (splitRecords fuel rest).map fun rs => s :: rs := by
  have h4 : (intBytes s.length).length = 4 := rfl
  have hr : readInt (intBytes s.length ++ (s ++ rest)) = s.length :=
    readInt_intBytes _ _ h
  have hd : (intBytes s.length ++ (s ++ rest)).drop 4 = s ++ rest :=
    List.drop_left' h4
  have hl : ¬ (intBytes s.length ++ (s ++ rest)).length < 4 := by
    rw [List.length_append, h4]; omega
  have hcons : intBytes s.length ++ (s ++ rest)
      = (intBytes s.length).head (by simp [intBytes]) ::
        ((intBytes s.length).tail ++ (s ++ rest)) := by
    simp [intBytes]
  rw [hcons, splitRecords_cons, ← hcons, if_neg hl, hd, hr, if_neg (by simp), List.take_left, List.drop_left]

theorem splitRecords_specArchive (codec : Codec) (files : List InputFile)
    (hfit : ∀ f, f ∈ files →
      (codec.stream (f.content.take BUFFER_SIZE)).length ≤ BUFFER_SIZE) :
    ∀ fuel, (specArchive codec files).length ≤ fuel →
      splitRecords fuel (specArchive codec files)
        = some (files.map fun f => codec.stream (f.content.take BUFFER_SIZE)) := by
  induction files with
  | nil => intro fuel _; exact splitRecords_nil fuel
  | cons f fs ih =>
    intro fuel hfuel
    have hf := hfit f (List.mem_cons_self _ _)
    have hlt : (codec.stream (f.content.take BUFFER_SIZE)).length < 4294967296 := by
      have hb : BUFFER_SIZE = 1048576 := rfl
      omega
    have e : specArchive codec (f :: fs)
        = intBytes (codec.stream (f.content.take BUFFER_SIZE)).length
          ++ (codec.stream (f.content.take BUFFER_SIZE) ++ specArchive codec fs) := by
      simp [specArchive, specFrame, List.flatMap_cons]
    have h4 : (intBytes (codec.stream (f.content.take BUFFER_SIZE)).length).length = 4 :=
      rfl
    rw [e] at hfuel ⊢
    rw [List.length_append, List.length_append, h4] at hfuel
    obtain ⟨k, rfl⟩ : ∃ k, fuel = k + 1 := ⟨fuel - 1, by omega⟩
    rw [splitRecords_frame k _ _ hlt,
      ih (fun g hg => hfit g (List.mem_cons_of_mem _ hg)) k (by omega)]
    rfl

theorem dropWhile_replicate_zero (n : Nat) :
    (List.replicate n (0 : Byte)).dropWhile (fun b => b = 0) = [] := by
  induction n with
  | zero => rfl
  | succ n ih => simp [List.replicate_succ, List.dropWhile_cons, ih]

theorem trimCodec_zeros (n : Nat) :
    trimCodec.stream (List.replicate n 0) = intBytes n := by
  simp [trimCodec, List.reverse_replicate, dropWhile_replicate_zero]

/-- No lossless codec whose streams are never empty (every zlib stream starts
with a two-byte header) keeps all inputs of at most `BUFFER_SIZE` bytes within
`BUFFER_SIZE` bytes of output. -/
theorem lossless_codec_overflows (codec : Codec)
    (hinj : Function.Injective codec.stream) (hne : ∀ x, codec.stream x ≠ []) :
    ∃ x : List Byte, x.length ≤ BUFFER_SIZE ∧ BUFFER_SIZE < (codec.stream x).length := by
  by_contra hcon
  push_neg at hcon
  have hfin : Finite {l : List Byte // l.length ≤ BUFFER_SIZE} :=
    (List.finite_length_le Byte BUFFER_SIZE).to_subtype
  let g : {l : List Byte // l.length ≤ BUFFER_SIZE} →
      {l : List Byte // l.length ≤ BUFFER_SIZE} :=
    fun x => ⟨codec.stream x.1, hcon x.1 x.2⟩
  have hg : Function.Injective g := by
    intro a b hab
    apply Subtype.ext
    apply hinj
    exact congrArg Subtype.val hab
  obtain ⟨y, hy⟩ := Finite.surjective_of_injective hg ⟨[], Nat.zero_le _⟩
  exact hne y.1 (congrArg Subtype.val hy)

theorem deflate_ret_ok (codec : Codec) (next_in : List Byte) (avail_in : Nat)
    (next_out : List Byte) (avail_out : Nat)
    (h : ¬ (codec.stream (next_in.take avail_in)).length ≤ avail_out) :
    (deflate codec next_in avail_in next_out avail_out).ret = Z_OK := by
  unfold deflate
  simp only [h, if_false]

theorem positions_idle (w n : Nat) (h : n ≤ w) : positions w n = [] := by
  unfold positions
  cases n with
  | zero => rfl
  | succ n =>
    unfold loopPositions
    rw [if_neg (by omega)]

theorem take_min_content (f : InputFile) :
    f.content.take (min f.content.length BUFFER_SIZE) = f.content.take BUFFER_SIZE := by
  rcases Nat.le_total f.content.length BUFFER_SIZE with h | h
  · rw [Nat.min_eq_left h, List.take_length, List.take_of_length_le h]
  · rw [Nat.min_eq_right h]

theorem reached_inv (files : List InputFile) (codec : Codec)
    (heap : Nat → List Byte × List Byte) (sched : List Nat) :
    Inv files codec (reached files codec heap sched) :=
  run_inv files codec sched _ (init_inv files codec heap)

theorem wrapInt_zero : wrapInt 0 = 0 := by
  unfold wrapInt; omega

theorem compressionRate_zero : compressionRate 0 0 = Rate.nan := by
  simp [compressionRate, doubleDiv, wrapInt_zero]

/-- The loop variable of a thread that is inside the loop body is one of the
positions of its stripe. -/
theorem body_position_mem (files : List InputFile) (codec : Codec)
    (heap : Nat → List Byte × List Byte) (sched : List Nat) (w : Nat)
    (hw : w < MAX_THREADS)
    (hin : 1 ≤ ((reached files codec heap sched).workers w).pc.rank) :
    ((reached files codec heap sched).workers w).i ∈ positions w files.length :=
  (mem_positions _ _ _ hw).mpr
    ⟨(reached_inv files codec heap sched).inLoop w hw hin,
      (reached_inv files codec heap sched).stripe w hw⟩

/-! ## The claims -/

/-- C2. Archive format: when every file can be opened and the codec finishes on
every file, a complete schedule exists and every complete run is successful and
has written exactly the concatenation, in the order of the files, of a 4-byte
length field holding `L_i` followed by the `L_i` bytes the codec produced for
file `i`; nothing comes before, between or after the frames. -/
theorem C2_archive_format (files : List InputFile) (codec : Codec)
    (heap : Nat → List Byte × List Byte)
    (hopen : ∀ f, f ∈ files → f.fopen_ok = true)
    (hcodec : ∀ f, f ∈ files →
      (codec.stream (f.content.take BUFFER_SIZE)).length ≤ BUFFER_SIZE) :
    (∃ out, main files codec heap (seqSchedule files.length) = some out) ∧
    (∀ sched out, main files codec heap sched = some out →
      out ≠ Outcome.aborted ∧
      out.archive = (files.map fun f =>
        intBytes (codec.stream (f.content.take BUFFER_SIZE)).length
          ++ codec.stream (f.content.take BUFFER_SIZE)).flatten) ∧
    (∀ f, f ∈ files →
      (intBytes (codec.stream (f.content.take BUFFER_SIZE)).length).length = 4 ∧
      readInt (intBytes (codec.stream (f.content.take BUFFER_SIZE)).length)
        = (codec.stream (f.content.take BUFFER_SIZE)).length) := by
  refine ⟨main_seqSchedule files codec heap, ?_, ?_⟩
  · intro sched out h
    rcases main_some h with ⟨_, hbad⟩ | ⟨hout, _⟩
    · exact absurd (fun f hf => ⟨hopen f hf, hcodec f hf⟩) hbad
    · rw [hout]
      refine ⟨?_, rfl⟩
      intro e
      cases e
  · intro f hf
    refine ⟨rfl, ?_⟩
    have hb : BUFFER_SIZE = 1048576 := rfl
    have := readInt_intBytes (codec.stream (f.content.take BUFFER_SIZE)).length []
      (by have := hcodec f hf; omega)
    simpa using this

set_option maxRecDepth 100000 in
/-- C2 on two small frames: the archive is the two length-prefixed streams. -/
theorem C2_archive_format_witness :
    (∀ f, f ∈ twoFiles → f.fopen_ok = true) ∧
    (∀ f, f ∈ twoFiles →
      (demoCodec.stream (f.content.take BUFFER_SIZE)).length ≤ BUFFER_SIZE) ∧
    (main twoFiles demoCodec staleHeap (roundRobin 11)).map Outcome.archive
      = some [4, 0, 0, 0, 120, 1, 2, 3, 2, 0, 0, 0, 120, 7] ∧
    ∀ sched out, main twoFiles demoCodec staleHeap sched = some out →
      out ≠ Outcome.aborted ∧
      out.archive = (twoFiles.map fun f =>
        intBytes (demoCodec.stream (f.content.take BUFFER_SIZE)).length
          ++ demoCodec.stream (f.content.take BUFFER_SIZE)).flatten :=
  ⟨by decide, by decide, by decide,
    (C2_archive_format twoFiles demoCodec staleHeap (by decide) (by decide)).2.1⟩

/-- C3. Order invariance: any two complete schedules of the threads (whatever
the interleaving of their steps) end the run in the same way, with the same
archive bytes; if the run did not abort, the two results tables are equal.
Running the threads one after the other in any order, for instance 0..18 or
18..0, is a complete schedule. -/
theorem C3_order_invariance (files : List InputFile) (codec : Codec)
    (heap : Nat → List Byte × List Byte) (s1 s2 : List Nat)
    (h1 : (main files codec heap s1).isSome = true)
    (h2 : (main files codec heap s2).isSome = true) :
    main files codec heap s1 = main files codec heap s2 ∧
    (main files codec heap s1).map Outcome.archive
      = (main files codec heap s2).map Outcome.archive ∧
    ((runWorkers files codec s1 (initState heap)).aborted = false →
      (runWorkers files codec s1 (initState heap)).shared_compressed_files
        = (runWorkers files codec s2 (initState heap)).shared_compressed_files) ∧
    (∀ order : List Nat, (∀ w, w < MAX_THREADS → w ∈ order) →
      (main files codec heap (orderSchedule order files.length)).isSome = true) := by
  obtain ⟨o1, e1⟩ := Option.isSome_iff_exists.mp h1
  obtain ⟨o2, e2⟩ := Option.isSome_iff_exists.mp h2
  have hmain : main files codec heap s1 = main files codec heap s2 := by
    rw [e1, e2]
    rcases main_some e1 with ⟨a1, b1⟩ | ⟨a1, b1, _⟩
    · rcases main_some e2 with ⟨a2, _⟩ | ⟨_, b2, _⟩
      · rw [a1, a2]
      · exact absurd b2 b1
    · rcases main_some e2 with ⟨_, b2⟩ | ⟨a2, _, _⟩
      · exact absurd b1 b2
      · rw [a1, a2]
  refine ⟨hmain, by rw [hmain], ?_, ?_⟩
  · intro hab
    rcases main_some e1 with ⟨a1, _⟩ | ⟨_, b1, _, t1⟩
    · simp only [main] at e1
      rw [hab] at e1
      simp only [Bool.false_eq_true, if_false] at e1
      split_ifs at e1
      rw [a1] at e1
      cases e1
    · rcases main_some e2 with ⟨_, b2⟩ | ⟨_, _, _, t2⟩
      · exact absurd b1 b2
      · rw [t1, t2]
  · intro order hall
    obtain ⟨out, hout⟩ := main_orderSchedule files codec heap order hall
    rw [hout]; rfl

set_option maxRecDepth 100000 in
/-- C3 on two small frames: the sequential schedule and a round-robin schedule
that starts with the last thread give the same archive. -/
theorem C3_order_invariance_witness :
    (main twoFiles demoCodec staleHeap (seqSchedule 2)).isSome = true ∧
    (main twoFiles demoCodec staleHeap (roundRobin 11)).isSome = true ∧
    (main twoFiles demoCodec staleHeap (seqSchedule 2)).map Outcome.archive
      = some [4, 0, 0, 0, 120, 1, 2, 3, 2, 0, 0, 0, 120, 7] ∧
    (main twoFiles demoCodec staleHeap (seqSchedule 2)).map Outcome.archive
      = (main twoFiles demoCodec staleHeap (roundRobin 11)).map Outcome.archive :=
  ⟨by decide, by decide, by decide,
    (C3_order_invariance twoFiles demoCodec staleHeap (seqSchedule 2) (roundRobin 11)
      (by decide) (by decide)).2.1⟩

/-- C4 as stated fails: a file of 1048577 zero bytes is compressed by a
successful run, and `total_in` ends at 1048576, not at the raw length
1048577. -/
theorem C4_counterexample :
    ∃ a tout r,
      main [overFile] trimCodec staleHeap (seqSchedule 1)
        = some (Outcome.finished a 1048576 tout r) ∧
      ([overFile].map fun f => f.content.length).sum = 1048577 := by
  obtain ⟨out, hout⟩ := main_seqSchedule [overFile] trimCodec staleHeap
  have hlen : overFile.content.length = 1048577 := by
    show (List.replicate (BUFFER_SIZE + 1) (0 : Byte)).length = 1048577
    rw [List.length_replicate]
    rfl
  have htake : overFile.content.take BUFFER_SIZE = List.replicate BUFFER_SIZE 0 := by
    show (List.replicate (BUFFER_SIZE + 1) (0 : Byte)).take BUFFER_SIZE = _
    rw [List.take_replicate, Nat.min_eq_left (Nat.le_succ _)]
  have hok : ∀ f, f ∈ [overFile] → fileOk trimCodec f := by
    intro f hf
    rw [List.mem_singleton.mp hf]
    refine ⟨rfl, ?_⟩
    rw [htake, trimCodec_zeros]
    decide
  have hsum : sumIn [overFile] = 1048576 := by
    simp only [sumIn, List.map_cons, List.map_nil, List.sum_cons, List.sum_nil, hlen]
    rfl
  rcases main_some hout with ⟨_, hbad⟩ | ⟨ho, _⟩
  · exact absurd hok hbad
  · refine ⟨specArchive trimCodec [overFile], wrapInt (sumOut trimCodec [overFile]),
      compressionRate (wrapInt (sumIn [overFile])) (wrapInt (sumOut trimCodec [overFile])),
      ?_, ?_⟩
    · rw [show seqSchedule 1 = seqSchedule [overFile].length from rfl, hout, ho, hsum]
      rfl
    · simp only [List.map_cons, List.map_nil, List.sum_cons, List.sum_nil, hlen,
        Nat.add_zero]

/-- C4, amended. For every complete successful run, under every interleaving,
`total_in` is the sum over the files of the bytes read, `min(len, BUFFER_SIZE)`
each, and `total_out` is the sum of the compressed lengths, as long as the two
sums stay below `2 ^ 31`. -/
theorem C4_counter_correctness (files : List InputFile) (codec : Codec)
    (heap : Nat → List Byte × List Byte) (sched : List Nat)
    (a : List Byte) (tin tout : Int) (r : Rate)
    (h : main files codec heap sched = some (Outcome.finished a tin tout r))
    (hin : (files.map fun f => min f.content.length BUFFER_SIZE).sum < 2147483648)
    (hout : (files.map fun f =>
      (codec.stream (f.content.take BUFFER_SIZE)).length).sum < 2147483648) :
    tin = ((files.map fun f => min f.content.length BUFFER_SIZE).sum : Nat) ∧
    tout = ((files.map fun f =>
      (codec.stream (f.content.take BUFFER_SIZE)).length).sum : Nat) := by
  rcases main_some h with ⟨ho, _⟩ | ⟨ho, _⟩
  · cases ho
  · injection ho with _ h2 h3 _
    have e1 : wrapInt (sumIn files) = sumIn files :=
      wrapInt_of_small _ (by omega) (by unfold sumIn; omega)
    have e2 : wrapInt (sumOut codec files) = sumOut codec files :=
      wrapInt_of_small _ (by omega) (by unfold sumOut; omega)
    rw [h2, h3, e1, e2]
    exact ⟨rfl, rfl⟩

set_option maxRecDepth 100000 in
/-- C4 (amended) on two small frames under a round-robin schedule: 4 bytes
read, 6 bytes produced. -/
theorem C4_counter_correctness_witness :
    main twoFiles demoCodec staleHeap (roundRobin 11)
      = some (Outcome.finished [4, 0, 0, 0, 120, 1, 2, 3, 2, 0, 0, 0, 120, 7] 4 6
          (Rate.quotient (-200) 4)) ∧
    (4 : Int) = ((twoFiles.map fun f => min f.content.length BUFFER_SIZE).sum : Nat) ∧
    (6 : Int) = ((twoFiles.map fun f =>
      (demoCodec.stream (f.content.take BUFFER_SIZE)).length).sum : Nat) :=
  ⟨by decide,
    C4_counter_correctness twoFiles demoCodec staleHeap (roundRobin 11)
      [4, 0, 0, 0, 120, 1, 2, 3, 2, 0, 0, 0, 120, 7] 4 6 (Rate.quotient (-200) 4)
      (by decide) (by decide) (by decide)⟩

/-- C5. Round trip: if the codec has an inverse, the archive of a successful
run splits, by reading a 4-byte length and then that many bytes again and
again, into exactly one record per file with nothing left over, and inflating
record `i` gives back file `i` whenever the file is at most `BUFFER_SIZE` bytes
long. -/
theorem C5_round_trip (files : List InputFile) (codec : Codec)
    (heap : Nat → List Byte × List Byte) (sched : List Nat)
    (inflate : List Byte → List Byte)
    (hinverse : ∀ x, inflate (codec.stream x) = x)
    (a : List Byte) (tin tout : Int) (r : Rate)
    (h : main files codec heap sched = some (Outcome.finished a tin tout r)) :
    ∃ records, readRecords a = some records ∧ records.length = files.length ∧
      ∀ i (hi : i < files.length), files[i].content.length ≤ BUFFER_SIZE →
        (records[i]?).map inflate = some files[i].content := by
  rcases main_some h with ⟨ho, _⟩ | ⟨ho, hok, _⟩
  · cases ho
  · injection ho with h1 _ _ _
    refine ⟨files.map fun f => codec.stream (f.content.take BUFFER_SIZE), ?_, ?_, ?_⟩
    · rw [h1]
      exact splitRecords_specArchive codec files (fun f hf => (hok f hf).2) _
        (Nat.le_refl _)
    · simp
    · intro i hi hlen
      rw [List.getElem?_map, List.getElem?_eq_getElem hi]
      simp only [Option.map_some']
      rw [hinverse, List.take_of_length_le hlen]

set_option maxRecDepth 100000 in
/-- C5 on two small frames: the archive reads back as two records that inflate
to the two files. -/
theorem C5_round_trip_witness :
    (∀ x, demoInflate (demoCodec.stream x) = x) ∧
    main twoFiles demoCodec staleHeap (seqSchedule 2)
      = some (Outcome.finished [4, 0, 0, 0, 120, 1, 2, 3, 2, 0, 0, 0, 120, 7] 4 6
          (Rate.quotient (-200) 4)) ∧
    readRecords [4, 0, 0, 0, 120, 1, 2, 3, 2, 0, 0, 0, 120, 7]
      = some [[120, 1, 2, 3], [120, 7]] ∧
    ∃ records,
      readRecords [4, 0, 0, 0, 120, 1, 2, 3, 2, 0, 0, 0, 120, 7] = some records ∧
      records.length = twoFiles.length ∧
      ∀ i (hi : i < twoFiles.length), twoFiles[i].content.length ≤ BUFFER_SIZE →
        (records[i]?).map demoInflate = some twoFiles[i].content :=
  ⟨fun _ => rfl, by decide, by decide,
    C5_round_trip twoFiles demoCodec staleHeap (seqSchedule 2) demoInflate
      (fun _ => rfl) [4, 0, 0, 0, 120, 1, 2, 3, 2, 0, 0, 0, 120, 7] 4 6
      (Rate.quotient (-200) 4) (by decide)⟩

/-- C6. A read failure is not fatal: for a file that `fopen` opens but `fread`
cannot read (no byte is transferred, the stream is in error), and any codec
whose stream for the empty input fits the output buffer, a complete schedule
exists and every complete run finishes without abort, writes one frame (that of
the empty input) to the archive and reports a rate.  The loop body asserts on
`fopen` but never tests the outcome of `fread`. -/
theorem C6_read_failure_not_fatal (codec : Codec)
    (heap : Nat → List Byte × List Byte)
    (hfit : (codec.stream []).length ≤ BUFFER_SIZE) :
    unreadableFile.fopen_ok = true ∧ unreadableFile.read_error = true ∧
    (∃ out, main [unreadableFile] codec heap (seqSchedule 1) = some out) ∧
    ∀ sched out, main [unreadableFile] codec heap sched = some out →
      out ≠ Outcome.aborted ∧
      out.archive = intBytes (codec.stream []).length ++ codec.stream [] ∧
      out.report ≠ none := by
  refine ⟨rfl, rfl, main_seqSchedule [unreadableFile] codec heap, ?_⟩
  intro sched out h
  have hok : ∀ f, f ∈ [unreadableFile] → fileOk codec f := by
    intro f hf
    rw [List.mem_singleton.mp hf]
    exact ⟨rfl, hfit⟩
  rcases main_some h with ⟨_, hbad⟩ | ⟨ho, _⟩
  · exact absurd hok hbad
  · rw [ho]
    refine ⟨?_, ?_, ?_⟩
    · intro e
      cases e
    · show specArchive codec [unreadableFile] = _
      simp [specArchive, specFrame, unreadableFile]
    · intro e
      cases e

set_option maxRecDepth 100000 in
/-- C6 with the stand-in codec: the run on the unreadable file finishes, with the
archive holding one frame of one byte and the rate `100.0 * (0 - 1) / 0`. -/
theorem C6_read_failure_not_fatal_witness :
    (demoCodec.stream []).length ≤ BUFFER_SIZE ∧
    main [unreadableFile] demoCodec staleHeap (roundRobin 6)
      = some (Outcome.finished [1, 0, 0, 0, 120] 0 1 (Rate.inf true)) ∧
    ∀ sched out, main [unreadableFile] demoCodec staleHeap sched = some out →
      out ≠ Outcome.aborted ∧
      out.archive = intBytes (demoCodec.stream []).length ++ demoCodec.stream [] ∧
      out.report ≠ none :=
  ⟨by decide, by decide,
    (C6_read_failure_not_fatal demoCodec staleHeap (by decide)).2.2.2⟩

/-- C7. Empty input: with no file, every complete run writes an empty archive
and leaves both counters at 0; the rate expression then divides by
`total_in = 0` without any guard, and the reported value is NaN. -/
theorem C7_empty_input (codec : Codec) (heap : Nat → List Byte × List Byte) :
    main [] codec heap (seqSchedule 0) = some (Outcome.finished [] 0 0 Rate.nan) ∧
    (∀ sched out, main [] codec heap sched = some out →
      out = Outcome.finished [] 0 0 Rate.nan) ∧
    compressionRate 0 0 = doubleDiv 0 0 := by
  have key : ∀ sched out, main [] codec heap sched = some out →
      out = Outcome.finished [] 0 0 Rate.nan := by
    intro sched out h
    rcases main_some h with ⟨_, hbad⟩ | ⟨ho, _⟩
    · exact absurd (fun f hf => by cases hf) hbad
    · rw [ho]
      have e1 : sumIn [] = 0 := rfl
      have e2 : sumOut codec [] = 0 := rfl
      have e3 : specArchive codec [] = [] := rfl
      rw [e1, e2, e3]
      simp only [Nat.cast_zero, wrapInt_zero, compressionRate_zero]
  obtain ⟨out, hout⟩ := main_seqSchedule [] codec heap
  refine ⟨?_, key, rfl⟩
  rw [show seqSchedule 0 = seqSchedule ([] : List InputFile).length from rfl, hout,
    key _ _ hout]

/-- C8. Truncation at the buffer bound: whenever a thread is about to call the
codec, the bytes it hands over are exactly the first `min(len, BUFFER_SIZE)`
bytes of the file at its loop position (the whole file when it has at most
`BUFFER_SIZE` bytes), whatever its input buffer held before; and every entry
found in the results table is the frame of the file at that position, computed
from that file alone. -/
theorem C8_truncation (files : List InputFile) (codec : Codec)
    (heap : Nat → List Byte × List Byte) (sched : List Nat) :
    (∀ w, w < MAX_THREADS →
      ((reached files codec heap sched).workers w).pc = Phase.compress →
      ∃ hi : ((reached files codec heap sched).workers w).i < files.length,
        ((reached files codec heap sched).workers w).buffer_in.take
            ((reached files codec heap sched).workers w).nbytes
          = files[((reached files codec heap sched).workers w).i].content.take
              (min files[((reached files codec heap sched).workers w).i].content.length
                BUFFER_SIZE) ∧
        (files[((reached files codec heap sched).workers w).i].content.length
            ≤ BUFFER_SIZE →
          ((reached files codec heap sched).workers w).buffer_in.take
              ((reached files codec heap sched).workers w).nbytes
            = files[((reached files codec heap sched).workers w).i].content)) ∧
    (∀ j e, (reached files codec heap sched).shared_compressed_files j = some e →
      ∃ hj : j < files.length,
        e = intBytes (codec.stream (files[j].content.take BUFFER_SIZE)).length
          ++ codec.stream (files[j].content.take BUFFER_SIZE)) := by
  have hinv := reached_inv files codec heap sched
  constructor
  · intro w hw hpc
    have hlt := hinv.inLoop w hw (by rw [hpc]; simp [Phase.rank])
    have hrd := (hinv.readOk w hw (Or.inr hpc)).2
    rw [itemData_eq files _ hlt] at hrd
    refine ⟨hlt, ?_, ?_⟩
    · rw [take_min_content]; exact hrd
    · intro hlen
      rw [hrd, List.take_of_length_le hlen]
  · intro j e he
    rw [hinv.table j] at he
    by_cases hc : j < files.length ∧
        passed 4 ((reached files codec heap sched).workers (j % MAX_THREADS)) j
    · rw [if_pos hc] at he
      refine ⟨hc.1, ?_⟩
      rw [← Option.some.inj he]
      simp only [itemEntry, itemStream_eq files codec j hc.1]
    · rw [if_neg hc] at he
      cases he

set_option maxRecDepth 100000 in
/-- C8 on twenty small frames: thread 0 has compressed frame 0 (three bytes) and
is about to compress frame 19 (one byte); its input buffer still holds two
bytes of frame 0 behind the byte of frame 19, and only that one byte is handed
to the codec. -/
theorem C8_truncation_witness :
    ((reached twentyFiles demoCodec staleHeap (List.replicate 7 0)).workers 0).pc
      = Phase.compress ∧
    ((reached twentyFiles demoCodec staleHeap (List.replicate 7 0)).workers 0).i = 19 ∧
    ((reached twentyFiles demoCodec staleHeap (List.replicate 7 0)).workers 0).buffer_in.take 3
      = [9, 2, 3] ∧
    ((reached twentyFiles demoCodec staleHeap (List.replicate 7 0)).workers 0).buffer_in.take
        ((reached twentyFiles demoCodec staleHeap (List.replicate 7 0)).workers 0).nbytes
      = [9] ∧
    ∃ hi : ((reached twentyFiles demoCodec staleHeap (List.replicate 7 0)).workers 0).i
        < twentyFiles.length,
      ((reached twentyFiles demoCodec staleHeap (List.replicate 7 0)).workers 0).buffer_in.take
          ((reached twentyFiles demoCodec staleHeap (List.replicate 7 0)).workers 0).nbytes
        = twentyFiles[((reached twentyFiles demoCodec staleHeap
            (List.replicate 7 0)).workers 0).i].content.take
            (min twentyFiles[((reached twentyFiles demoCodec staleHeap
              (List.replicate 7 0)).workers 0).i].content.length BUFFER_SIZE) :=
  ⟨by decide, by decide, by decide, by decide,
    ((C8_truncation twentyFiles demoCodec staleHeap (List.replicate 7 0)).1 0
      (by decide) (by decide)).imp fun _ h => h.1⟩

/-- C9. The output buffer is too small: `avail_out` is `BUFFER_SIZE`, the size of
the input buffer.  For every lossless codec whose streams are never empty (zlib
is one: it has an inverse and every stream starts with a two-byte header) there
is a readable file of at most `BUFFER_SIZE` bytes for which `deflate` fills the
output buffer and returns `Z_OK` instead of `Z_STREAM_END`; the assertion on the
status then fails and every complete run of that file aborts.  The status is
`Z_STREAM_END` exactly when the stream fits. -/
theorem C9_output_buffer_overflow (codec : Codec)
    (hinj : Function.Injective codec.stream) (hne : ∀ x, codec.stream x ≠ []) :
    (∀ content next_out : List Byte,
      (deflate codec content content.length next_out BUFFER_SIZE).ret = Z_STREAM_END ↔
        (codec.stream content).length ≤ BUFFER_SIZE) ∧
    ∃ content : List Byte, content.length ≤ BUFFER_SIZE ∧
      (plainFile content).fopen_ok = true ∧ (plainFile content).read_error = false ∧
      (∀ next_out : List Byte,
        (deflate codec content content.length next_out BUFFER_SIZE).ret = Z_OK) ∧
      (∀ heap, main [plainFile content] codec heap (seqSchedule 1)
        = some Outcome.aborted) ∧
      (∀ heap sched out, main [plainFile content] codec heap sched = some out →
        out = Outcome.aborted) := by
  constructor
  · intro content next_out
    rw [deflate_ret_iff, List.take_length]
  · obtain ⟨x, hx, hover⟩ := lossless_codec_overflows codec hinj hne
    have hbig : ¬ (codec.stream (x.take x.length)).length ≤ BUFFER_SIZE := by
      rw [List.take_length]; omega
    have hbad : ¬ ∀ f, f ∈ [plainFile x] → fileOk codec f := by
      intro hall
      have h2 := (hall (plainFile x) (List.mem_singleton.mpr rfl)).2
      have e : (plainFile x).content.take BUFFER_SIZE = x := List.take_of_length_le hx
      rw [e] at h2
      omega
    have key : ∀ heap sched out, main [plainFile x] codec heap sched = some out →
        out = Outcome.aborted := by
      intro heap sched out h
      rcases main_some h with ⟨ho, _⟩ | ⟨_, hok, _⟩
      · exact ho
      · exact absurd hok hbad
    refine ⟨x, hx, rfl, rfl, fun next_out => deflate_ret_ok _ _ _ _ _ hbig, ?_, key⟩
    intro heap
    obtain ⟨out, hout⟩ := main_seqSchedule [plainFile x] codec heap
    rw [show seqSchedule 1 = seqSchedule [plainFile x].length from rfl, hout,
      key heap _ out hout]

/-- C9 with the stand-in codec, which is lossless and never emits an empty
stream: some file of at most `BUFFER_SIZE` bytes makes every complete run
abort. -/
theorem C9_output_buffer_overflow_witness :
    Function.Injective demoCodec.stream ∧ (∀ x, demoCodec.stream x ≠ []) ∧
    ∃ content : List Byte, content.length ≤ BUFFER_SIZE ∧
      (plainFile content).fopen_ok = true ∧ (plainFile content).read_error = false ∧
      (∀ next_out : List Byte,
        (deflate demoCodec content content.length next_out BUFFER_SIZE).ret = Z_OK) ∧
      (∀ heap, main [plainFile content] demoCodec heap (seqSchedule 1)
        = some Outcome.aborted) ∧
      (∀ heap sched out, main [plainFile content] demoCodec heap sched = some out →
        out = Outcome.aborted) :=
  ⟨fun _ _ h => List.tail_eq_of_cons_eq h, fun _ h => List.cons_ne_nil _ _ h,
    (C9_output_buffer_overflow demoCodec (fun _ _ h => List.tail_eq_of_cons_eq h)
      (fun _ h => List.cons_ne_nil _ _ h)).2⟩

/-- C10. Idle threads: when there are fewer files than threads, a thread whose
id is at least the number of files has an empty assignment, is never inside the
loop body, and its step changes neither of the two counters, nor the results
table, nor the abort flag: it only returns.  No entry is ever written at an
index beyond the files. -/
theorem C10_idle_workers (files : List InputFile) (codec : Codec)
    (heap : Nat → List Byte × List Byte) (sched : List Nat) (w : Nat)
    (hN : files.length ≤ w) (hw : w < MAX_THREADS) :
    positions w files.length = [] ∧
    (((reached files codec heap sched).workers w).pc = Phase.loopTest ∨
      ((reached files codec heap sched).workers w).pc = Phase.returned) ∧
    (step files codec (reached files codec heap sched) w).total_in
      = (reached files codec heap sched).total_in ∧
    (step files codec (reached files codec heap sched) w).total_out
      = (reached files codec heap sched).total_out ∧
    (step files codec (reached files codec heap sched) w).shared_compressed_files
      = (reached files codec heap sched).shared_compressed_files ∧
    (step files codec (reached files codec heap sched) w).aborted
      = (reached files codec heap sched).aborted ∧
    ((reached files codec heap sched).aborted = false →
      ((step files codec (reached files codec heap sched) w).workers w).pc
        = Phase.returned) ∧
    (∀ j, files.length ≤ j →
      (reached files codec heap sched).shared_compressed_files j = none) := by
  have hinv := reached_inv files codec heap sched
  have hstripe := hinv.stripe w hw
  have hge : w ≤ ((reached files codec heap sched).workers w).i := by
    calc w = ((reached files codec heap sched).workers w).i % MAX_THREADS :=
          hstripe.symm
      _ ≤ ((reached files codec heap sched).workers w).i := Nat.mod_le _ _
  have hnlt : ¬ ((reached files codec heap sched).workers w).i < files.length := by
    omega
  have hrank : ¬ 1 ≤ ((reached files codec heap sched).workers w).pc.rank :=
    fun h => hnlt (hinv.inLoop w hw h)
  have hpc : ((reached files codec heap sched).workers w).pc = Phase.loopTest ∨
      ((reached files codec heap sched).workers w).pc = Phase.returned := by
    cases h : ((reached files codec heap sched).workers w).pc <;>
      simp [h, Phase.rank] at hrank ⊢
  have htab : ∀ j, files.length ≤ j →
      (reached files codec heap sched).shared_compressed_files j = none := by
    intro j hj
    rw [hinv.table j, if_neg (fun h => absurd h.1 (by omega))]
  refine ⟨positions_idle w _ hN, hpc, ?_⟩
  by_cases hg : (reached files codec heap sched).aborted = true ∨ MAX_THREADS ≤ w
  · rw [step_skip _ _ _ _ hg]
    refine ⟨rfl, rfl, rfl, rfl, fun hab => ?_, htab⟩
    rcases hg with h | h
    · rw [hab] at h; cases h
    · omega
  · rcases hpc with h | h
    · have hs : step files codec (reached files codec heap sched) w =
          { reached files codec heap sched with
            workers := setAt (reached files codec heap sched).workers w
              { (reached files codec heap sched).workers w with
                pc := Phase.returned } } := by
        simp only [step, if_neg hg, h, dif_neg hnlt]
      rw [hs]
      exact ⟨rfl, rfl, rfl, rfl, fun _ => by simp only [setAt_same], htab⟩
    · have hs : step files codec (reached files codec heap sched) w =
          reached files codec heap sched := by
        simp only [step, if_neg hg, h]
      rw [hs]
      exact ⟨rfl, rfl, rfl, rfl, fun _ => h, htab⟩

set_option maxRecDepth 100000 in
/-- C10 for a single frame: thread 0 alone visits position 0; thread 5 has
nothing to do and its step, taken while thread 0 is in the middle of its
iteration, leaves the counters and the table as they are. -/
theorem C10_idle_workers_witness :
    [plainFile [7]].length ≤ 5 ∧ 5 < MAX_THREADS ∧
    positions 0 1 = [0] ∧
    (∀ w, w < MAX_THREADS → 1 ≤ w → positions w 1 = []) ∧
    (reached [plainFile [7]] demoCodec staleHeap [0, 0, 0]).total_in = 1 ∧
    (step [plainFile [7]] demoCodec
      (reached [plainFile [7]] demoCodec staleHeap [0, 0, 0]) 5).total_in
      = (reached [plainFile [7]] demoCodec staleHeap [0, 0, 0]).total_in ∧
    (step [plainFile [7]] demoCodec
      (reached [plainFile [7]] demoCodec staleHeap [0, 0, 0]) 5).shared_compressed_files
      = (reached [plainFile [7]] demoCodec staleHeap [0, 0, 0]).shared_compressed_files :=
  ⟨by decide, by decide, by decide, by decide, by decide,
    (C10_idle_workers [plainFile [7]] demoCodec staleHeap [0, 0, 0] 5
      (by decide) (by decide)).2.2.1,
    (C10_idle_workers [plainFile [7]] demoCodec staleHeap [0, 0, 0] 5
      (by decide) (by decide)).2.2.2.2.1⟩

end VideoZip
